import Mathlib

/-!
Verification development for the `director-plan` crate.

This file shallow-embeds the parts of the crate the claims are about:

* `src/context/ast.rs` — dependency graph, BFS context query (`get_context`),
  extraction of imports (`parse_ts_imports`, `parse_rs_imports`) and content
  degradation (`prune_content`, `prune_ts`);
* `src/execution_loop.rs` — `run_with_handshake`, `extract_confidence`, `verify`;
* `src/verification/visual_diff.rs` — `verify_visual`, `pixels_match`.

Modelling conventions:

* Rust `f32`/`f64` values are modelled as exact rationals (`ℚ`); none of the
  claims depends on floating-point rounding.
* String indices are character indices (the Rust code uses byte indices; all
  claims are index-representation independent).
* The external parsers (`oxc` for TypeScript, `syn` for Rust) are third-party
  crates, not code of this repository; they are modelled as parse oracles
  (`String → Option …`) whose result shape mirrors exactly the parts of the
  parse tree the repository code consumes.  `none` models a parse with errors.
* Process/filesystem effects (git, subprocesses, image decoding) are modelled
  as explicit world records consumed by the embedded control flow.
-/

namespace DirectorPlan

/-! ## String utilities

Character-level models of the Rust string operations used by the crate. -/

/-- `slice s a b` models the Rust slice `&s[a..b]` (character indices). -/
def slice (s : String) (a b : Nat) : String :=
  ((s.toList.drop a).take (b - a)).asString

/-- Concatenation of a list of strings; models `Vec<&str>::join("")`. -/
def concatStrings (l : List String) : String :=
  l.foldl (fun a b => a ++ b) ""

/-- Split a character list at `'\n'`; always returns at least one piece.
Models the pieces produced by splitting a Rust `&str` at `'\n'`. -/
def splitNl : List Char → List (List Char)
  | [] => [[]]
  | c :: rest =>
    if c = '\n' then [] :: splitNl rest
    else
      match splitNl rest with
      | [] => [[c]]
      | l :: ls => (c :: l) :: ls

/-- Strip one trailing `'\r'`, as Rust `str::lines` does on `\n`-terminated
pieces. -/
def stripCr (l : List Char) : List Char :=
  if l.getLast? = some '\r' then l.dropLast else l

/-- Model of Rust `str::lines`: split at `'\n'` terminators, strip a `'\r'`
from each `\n`-terminated piece, drop the empty piece after a trailing
newline, and keep a trailing piece without terminator verbatim. -/
def rustLines (s : String) : List String :=
  let ps := splitNl s.toList
  let body := (ps.dropLast.map stripCr).map List.asString
  match ps.getLast? with
  | some [] => body
  | some lastPiece => body ++ [lastPiece.asString]
  | none => body

/-! ## Content degradation (`ast.rs`, `prune_ts` / `prune_content`)

The TypeScript parse tree is modelled by the statement shapes that
`prune_ts` and `parse_ts_imports` inspect: the statement kind, its span, and
(for functions/classes) the body span.  A parse oracle
`String → Option (List Stmt)` stands for the external `oxc` parser; `none`
models `!ret.errors.is_empty()`. -/

/-- A source span (start/stop character offsets), as used via `GetSpan`. -/
structure Span where
  start : Nat
  stop : Nat
  deriving DecidableEq, Repr

/-- The top-level statement shapes distinguished by `prune_ts` and
`parse_ts_imports` in `ast.rs`. -/
inductive Stmt where
  | importDecl (span : Span) (source : String)
  | exportAllDecl (span : Span) (source : String)
  | exportNamedDecl (span : Span) (source : Option String)
  | tsTypeAlias (span : Span)
  | tsInterface (span : Span)
  | functionDecl (span : Span) (body : Option Span)
  | classDecl (span : Span) (body : Span)
  | variableDecl (span : Span)
  | other (span : Span)
  deriving DecidableEq, Repr

/-- The full span of a statement. -/
def Stmt.span : Stmt → Span
  | .importDecl sp _ => sp
  | .exportAllDecl sp _ => sp
  | .exportNamedDecl sp _ => sp
  | .tsTypeAlias sp => sp
  | .tsInterface sp => sp
  | .functionDecl sp _ => sp
  | .classDecl sp _ => sp
  | .variableDecl sp => sp
  | .other sp => sp

/-- A TypeScript parse oracle: `none` models a parse with errors. -/
abbrev TsParse := String → Option (List Stmt)

/-- One step of the `prune_ts` statement loop (`ast.rs:379-423`): the
accumulated parts and the running `last_pos`. -/
def pruneStep (content : String) (acc : List String × Nat) (stmt : Stmt) :
    List String × Nat :=
  match stmt with
  | .functionDecl sp (some b) =>
    (acc.1 ++ [slice content acc.2 sp.start,
               slice content sp.start b.start,
               "\x7b /* body pruned */ \x7d"], b.stop)
  | .classDecl sp b =>
    (acc.1 ++ [slice content acc.2 sp.start,
               slice content sp.start b.start,
               "\x7b /* class members pruned */ \x7d"], b.stop)
  | s =>
    (acc.1 ++ [slice content acc.2 s.span.stop], s.span.stop)

/-- Model of `prune_ts` (`ast.rs:365-428`): on parse failure the content is
returned unmodified; otherwise statements are walked in source order,
function bodies and class member lists are replaced by fixed placeholders,
and everything else is kept verbatim. -/
def pruneTs (parse : TsParse) (content : String) : String :=
  match parse content with
  | none => content
  | some stmts =>
    let r := stmts.foldl (pruneStep content) ([], 0)
    concatStrings (r.1 ++ [slice content r.2 content.length])

/-- Model of Rust `str::ends_with` (character-level). -/
def endsWithStr (s suf : String) : Bool :=
  suf.toList.isSuffixOf s.toList

/-- Does the path end in `.ts` or `.tsx`? (`ast.rs:358`) -/
def isTsPath (path : String) : Bool :=
  endsWithStr path ".ts" || endsWithStr path ".tsx"

/-- Model of `prune_content` (`ast.rs:357-363`): TypeScript files go through
`prune_ts`; all other files are truncated to their first 50 lines with a
`"\n... (pruned)"` marker appended. -/
def pruneContent (parse : TsParse) (path : String) (content : String) : String :=
  if isTsPath path then pruneTs parse content
  else String.intercalate "\n" ((rustLines content).take 50) ++ "\n... (pruned)"

/-! ## Import extraction (`ast.rs`, `parse_ts_imports` / `parse_rs_imports`) -/

/-- Model of `parse_ts_imports` (`ast.rs:258-290`): on parse errors the
list of imports is empty; otherwise the source specifiers of the
declarations of imports, re-export-alls and sourced named re-exports are
collected in order. -/
def parseTsImports (parse : TsParse) (content : String) : List String :=
  match parse content with
  | none => []
  | some stmts =>
    stmts.foldl (fun imports stmt =>
      match stmt with
      | .importDecl _ src => imports ++ [src]
      | .exportAllDecl _ src => imports ++ [src]
      | .exportNamedDecl _ (some src) => imports ++ [src]
      | _ => imports) []

/-- The `syn::UseTree` shapes consumed by `extract_use_paths`. -/
inductive UseTree where
  | path (ident : String) (tree : UseTree)
  | name (ident : String)
  | rename (ident : String)
  | glob
  | group (items : List UseTree)

/-- The `syn::Item` shapes consumed by `parse_rs_imports`. -/
inductive RsItem where
  | use' (tree : UseTree)
  | mod' (ident : String) (hasContent : Bool)
  | otherItem

/-- A Rust parse oracle: `none` models `syn::parse_file` failure. -/
abbrev RsParse := String → Option (List RsItem)

mutual

/-- Model of `extract_use_paths` (`ast.rs:317-352`). -/
def extractUsePaths (tree : UseTree) (pfx : String) : List String :=
  match tree with
  | .path ident sub =>
    extractUsePaths sub (if pfx = "" then ident else pfx ++ "::" ++ ident)
  | .name ident =>
    [if pfx = "" then ident else pfx ++ "::" ++ ident]
  | .rename ident =>
    [if pfx = "" then ident else pfx ++ "::" ++ ident]
  | .glob => [pfx]
  | .group items => extractUsePathsList items pfx

/-- `extract_use_paths` mapped over the items of a `UseTree::Group`. -/
def extractUsePathsList (items : List UseTree) (pfx : String) : List String :=
  match items with
  | [] => []
  | t :: rest => extractUsePaths t pfx ++ extractUsePathsList rest pfx

end

/-- Model of `parse_rs_imports` (`ast.rs:294-315`): on parse failure the
list of imports is empty; otherwise `use` trees are flattened and
file-backed module declarations (no inline body) contribute their name. -/
def parseRsImports (parse : RsParse) (content : String) : List String :=
  match parse content with
  | none => []
  | some items =>
    items.foldl (fun imports item =>
      match item with
      | .use' tree => imports ++ extractUsePaths tree ""
      | .mod' ident false => imports ++ [ident]
      | _ => imports) []

/-! ## Confidence extraction (`execution_loop.rs`, `extract_confidence`)

`extract_confidence` locates `output.find('{') .. output.rfind('}')`,
strict-parses the substring with `serde_json`, reads a numeric
`confidence` field, and on failure falls back to the regular expression
`"confidence"\s*:\s*([0-9.]+)`.  `serde_json::from_str` is modelled by a
strict JSON parser over characters; numbers are exact rationals. -/

/-- JSON values, as produced by `serde_json::from_str::<serde_json::Value>`. -/
inductive Json where
  | null
  | bool (b : Bool)
  | num (q : ℚ)
  | str (s : String)
  | arr (xs : List Json)
  | obj (fields : List (String × Json))

/-- JSON whitespace (the characters `serde_json` skips). -/
def isJsonWs (c : Char) : Bool :=
  c = ' ' || c = '\n' || c = '\r' || c = '\t'

/-- Drop leading JSON whitespace. -/
def skipWs (cs : List Char) : List Char :=
  cs.dropWhile isJsonWs

/-- Numeric value of a list of decimal digits. -/
def digitsToNat (ds : List Char) : Nat :=
  ds.foldl (fun acc c => acc * 10 + (c.toNat - '0'.toNat)) 0

/-- Parse a strict JSON number: integer part (no leading zero), optional
fraction, optional exponent.  Returns the exact rational value. -/
def parseJsonNumber (cs : List Char) : Option (ℚ × List Char) :=
  let (neg, cs1) :=
    match cs with
    | '-' :: rest => (true, rest)
    | _ => (false, cs)
  let intPart : Option (List Char × List Char) :=
    match cs1 with
    | '0' :: rest =>
      match rest with
      | d :: _ => if d.isDigit then none else some (['0'], rest)
      | [] => some (['0'], [])
    | d :: _ =>
      if d.isDigit then some (cs1.takeWhile Char.isDigit, cs1.dropWhile Char.isDigit)
      else none
    | [] => none
  match intPart with
  | none => none
  | some (ids, cs2) =>
    let (fds, cs3) :=
      match cs2 with
      | '.' :: rest =>
        (rest.takeWhile Char.isDigit, rest.dropWhile Char.isDigit)
      | _ => ([], cs2)
    if cs2 ≠ [] ∧ cs2.head? = some '.' ∧ fds = [] then none
    else
      let expPart : Option (Bool × List Char × List Char) :=
        match cs3 with
        | 'e' :: rest | 'E' :: rest =>
          let (eneg, rest2) :=
            match rest with
            | '+' :: r => (false, r)
            | '-' :: r => (true, r)
            | _ => (false, rest)
          let eds := rest2.takeWhile Char.isDigit
          if eds = [] then none else some (eneg, eds, rest2.dropWhile Char.isDigit)
        | _ => some (false, [], cs3)
      match expPart with
      | none => none
      | some (eneg, eds, cs4) =>
        let mant : Int := (digitsToNat ids * 10 ^ fds.length + digitsToNat fds : Nat)
        let mantSigned : Int := if neg then -mant else mant
        let e := digitsToNat eds
        let scaled : ℚ :=
          if eneg then mkRat mantSigned (10 ^ fds.length * 10 ^ e)
          else mkRat (mantSigned * ((10 ^ e : Nat) : Int)) (10 ^ fds.length)
        some (scaled, cs4)

/-- Hexadecimal digit value. -/
def hexVal (c : Char) : Option Nat :=
  if '0' ≤ c ∧ c ≤ '9' then some (c.toNat - '0'.toNat)
  else if 'a' ≤ c ∧ c ≤ 'f' then some (c.toNat - 'a'.toNat + 10)
  else if 'A' ≤ c ∧ c ≤ 'F' then some (c.toNat - 'A'.toNat + 10)
  else none

/-- Parse the body of a JSON string (after the opening quote). -/
def parseJsonStringBody : Nat → List Char → Option (List Char × List Char)
  | 0, _ => none
  | _, [] => none
  | fuel + 1, c :: rest =>
    if c = '"' then some ([], rest)
    else if c = '\\' then
      match rest with
      | [] => none
      | e :: rest2 =>
        let simple : Option Char :=
          if e = '"' then some '"'
          else if e = '\\' then some '\\'
          else if e = '/' then some '/'
          else if e = 'b' then some (Char.ofNat 8)
          else if e = 'f' then some (Char.ofNat 12)
          else if e = 'n' then some '\n'
          else if e = 'r' then some '\r'
          else if e = 't' then some '\t'
          else none
        match simple with
        | some ch =>
          match parseJsonStringBody fuel rest2 with
          | some (body, rem) => some (ch :: body, rem)
          | none => none
        | none =>
          if e = 'u' then
            match rest2 with
            | h1 :: h2 :: h3 :: h4 :: rest3 =>
              match hexVal h1, hexVal h2, hexVal h3, hexVal h4 with
              | some v1, some v2, some v3, some v4 =>
                let code := ((v1 * 16 + v2) * 16 + v3) * 16 + v4
                match parseJsonStringBody fuel rest3 with
                | some (body, rem) => some (Char.ofNat code :: body, rem)
                | none => none
              | _, _, _, _ => none
            | _ => none
          else none
    else if c.toNat < 32 then none
    else
      match parseJsonStringBody fuel rest with
      | some (body, rem) => some (c :: body, rem)
      | none => none

mutual

/-- Parse one JSON value (strict grammar, fuel-indexed recursion). -/
def parseJsonValue : Nat → List Char → Option (Json × List Char)
  | 0, _ => none
  | fuel + 1, cs =>
    match cs with
    | [] => none
    | 'n' :: 'u' :: 'l' :: 'l' :: rest => some (.null, rest)
    | 't' :: 'r' :: 'u' :: 'e' :: rest => some (.bool true, rest)
    | 'f' :: 'a' :: 'l' :: 's' :: 'e' :: rest => some (.bool false, rest)
    | '"' :: rest =>
      match parseJsonStringBody (rest.length + 1) rest with
      | some (body, rem) => some (.str body.asString, rem)
      | none => none
    | '[' :: rest =>
      let rest1 := skipWs rest
      match rest1 with
      | ']' :: rem => some (.arr [], rem)
      | _ =>
        match parseJsonElems fuel rest1 with
        | some (xs, rem) => some (.arr xs, rem)
        | none => none
    | '\x7b' :: rest =>
      let rest1 := skipWs rest
      match rest1 with
      | '\x7d' :: rem => some (.obj [], rem)
      | _ =>
        match parseJsonMembers fuel rest1 with
        | some (fs, rem) => some (.obj fs, rem)
        | none => none
    | _ =>
      match parseJsonNumber cs with
      | some (q, rest) => some (.num q, rest)
      | none => none

/-- Parse the comma-separated elements of a non-empty JSON array, including
the closing bracket. -/
def parseJsonElems : Nat → List Char → Option (List Json × List Char)
  | 0, _ => none
  | fuel + 1, cs =>
    match parseJsonValue fuel cs with
    | none => none
    | some (v, rest) =>
      match skipWs rest with
      | ',' :: rest2 =>
        match parseJsonElems fuel (skipWs rest2) with
        | some (xs, rem) => some (v :: xs, rem)
        | none => none
      | ']' :: rem => some ([v], rem)
      | _ => none

/-- Parse the comma-separated members of a non-empty JSON object, including
the closing brace.  Later duplicate keys overwrite earlier ones, as
`serde_json`'s map insertion does. -/
def parseJsonMembers : Nat → List Char → Option (List (String × Json) × List Char)
  | 0, _ => none
  | fuel + 1, cs =>
    match cs with
    | '"' :: rest =>
      match parseJsonStringBody (rest.length + 1) rest with
      | none => none
      | some (key, rest1) =>
        match skipWs rest1 with
        | ':' :: rest2 =>
          match parseJsonValue fuel (skipWs rest2) with
          | none => none
          | some (v, rest3) =>
            match skipWs rest3 with
            | ',' :: rest4 =>
              match parseJsonMembers fuel (skipWs rest4) with
              | some (fs, rem) =>
                some ((key.asString, v) :: fs.filter (fun p => p.1 ≠ key.asString), rem)
              | none => none
            | '\x7d' :: rem => some ([(key.asString, v)], rem)
            | _ => none
        | _ => none
    | _ => none

end

/-- Model of `serde_json::from_str::<serde_json::Value>`: parse one value,
allowing surrounding whitespace, and require the whole input consumed. -/
def serdeFromStr (s : String) : Option Json :=
  match parseJsonValue (s.length + 2) (skipWs s.toList) with
  | some (v, rest) => if skipWs rest = [] then some v else none
  | none => none

/-- Model of `Value::get("confidence")` composed with `as_f64`: a numeric
`confidence` field of a JSON object (with `serde_json`'s last-duplicate-wins
member semantics baked into parsing). -/
def jsonConfidence (v : Json) : Option ℚ :=
  match v with
  | .obj fields =>
    match fields.lookup "confidence" with
    | some (.num q) => some q
    | _ => none
  | _ => none

/-- Index of the first occurrence of `c` in `cs` (Rust `str::find`). -/
def firstIdx (cs : List Char) (c : Char) : Option Nat :=
  cs.findIdx? (fun x => x = c)

/-- Index of the last occurrence of `c` in `cs` (Rust `str::rfind`). -/
def lastIdx (cs : List Char) (c : Char) : Option Nat :=
  match (cs.reverse).findIdx? (fun x => x = c) with
  | some i => some (cs.length - 1 - i)
  | none => none

/-- The regex class `\s` (ASCII part): space, tab, newline, vertical tab,
form feed, carriage return. -/
def isRegexWs (c : Char) : Bool :=
  c = ' ' || c = '\t' || c = '\n' || c = '\x0b' || c = '\x0c' || c = '\r'

/-- Attempt to match the regex `"confidence"\s*:\s*([0-9.]+)` at the head of
`cs`; returns the (greedy) capture. -/
def matchConfAt (cs : List Char) : Option (List Char) :=
  let lit := "\"confidence\"".toList
  if cs.take lit.length = lit then
    let rest := (cs.drop lit.length).dropWhile isRegexWs
    match rest with
    | ':' :: rest2 =>
      let rest3 := rest2.dropWhile isRegexWs
      let digits := rest3.takeWhile (fun c => c.isDigit || c = '.')
      if digits = [] then none else some digits
    | _ => none
  else none

/-- Leftmost match of the confidence regex over the whole output (Rust
`Regex::captures`). -/
def scanConf : List Char → Option (List Char)
  | [] => none
  | c :: rest =>
    match matchConfAt (c :: rest) with
    | some d => some d
    | none => scanConf rest

/-- Model of Rust `str::parse::<f32>` restricted to strings over `[0-9.]`:
the parse succeeds iff there is at least one digit and at most one dot. -/
def parseF32Digits (ds : List Char) : Option ℚ :=
  if ds.count '.' ≤ 1 ∧ ds.any Char.isDigit then
    let ids := ds.takeWhile Char.isDigit
    let rest := ds.dropWhile Char.isDigit
    let fds := match rest with
      | '.' :: r => r
      | _ => []
    some (mkRat (digitsToNat ids * 10 ^ fds.length + digitsToNat fds) (10 ^ fds.length))
  else none

/-- The regex fallback of `extract_confidence` (`execution_loop.rs:331-337`):
leftmost regex match, then `parse::<f32>` of the capture. -/
def regexFallback (out : String) : Option ℚ :=
  match scanConf out.toList with
  | some ds => parseF32Digits ds
  | none => none

/-- Model of `ExecutionLoop::extract_confidence`
(`execution_loop.rs:318-340`).  The `?` on `find('{')`/`rfind('}')` makes
the whole function return `none` when either brace is absent; only strict
parse failure or a missing/non-numeric field reaches the regex fallback. -/
def extractConfidence (out : String) : Option ℚ :=
  let cs := out.toList
  match firstIdx cs '\x7b', lastIdx cs '\x7d' with
  | some js, some je =>
    let strictRes : Option ℚ :=
      if js < je then
        match serdeFromStr (slice out js (je + 1)) with
        | some v => jsonConfidence v
        | none => none
      else none
    match strictRes with
    | some c => some c
    | none => regexFallback out
  | _, _ => none

/-! ## Visual diff (`verification/visual_diff.rs`) -/

/-- A decoded image: dimensions plus per-pixel channel values (`u8`s). -/
structure Image where
  width : Nat
  height : Nat
  pix : Nat → Nat → List Nat

/-- `visual_diff.rs`, `Rect`. -/
structure Rect where
  x : Nat
  y : Nat
  width : Nat
  height : Nat
  deriving DecidableEq, Repr

/-- `visual_diff.rs`, `VisualDiffReport`. -/
structure VisualDiffReport where
  diff_detected : Bool
  mismatch_percentage : ℚ
  diff_bounds : Option Rect
  reason : Option String
  deriving DecidableEq

/-- Model of `pixels_match` (`visual_diff.rs:143-153`): all paired channels
within tolerance. -/
def pixelsMatch (p1 p2 : List Nat) (tolerance : Nat) : Bool :=
  (p1.zip p2).all (fun pr => ((pr.1 : ℤ) - (pr.2 : ℤ)).natAbs ≤ tolerance)

/-- The running state of the pixel-mismatch scan
(`mismatch_count`/`min_x`/`max_x`/`min_y`/`max_y`). -/
structure DiffState where
  count : Nat
  minX : Nat
  maxX : Nat
  minY : Nat
  maxY : Nat
  deriving DecidableEq, Repr

/-- One pixel comparison of the scan loop (`visual_diff.rs:108-114`). -/
def diffStep (img1 img2 : Image) (st : DiffState) (x y : Nat) : DiffState :=
  if pixelsMatch (img1.pix x y) (img2.pix x y) 0 then st
  else
    { count := st.count + 1
      minX := if x < st.minX then x else st.minX
      maxX := if x > st.maxX then x else st.maxX
      minY := if y < st.minY then y else st.minY
      maxY := if y > st.maxY then y else st.maxY }

/-- The double pixel loop of `verify_visual` (`visual_diff.rs:103-116`). -/
def pixelScan (img1 img2 : Image) : DiffState :=
  (List.range img1.height).foldl
    (fun st y => (List.range img1.width).foldl
      (fun st x => diffStep img1 img2 st x y) st)
    ⟨0, img1.width, 0, img1.height, 0⟩

/-- The image-comparison part of `verify_visual` (`visual_diff.rs:83-141`):
dimension check, pixel scan, report construction. -/
def compareImages (img1 img2 : Image) : VisualDiffReport :=
  if img1.width ≠ img2.width ∨ img1.height ≠ img2.height then
    { diff_detected := true
      mismatch_percentage := 100
      diff_bounds := none
      reason := some "Dimensions mismatch" }
  else
    let st := pixelScan img1 img2
    if st.count > 0 then
      { diff_detected := true
        mismatch_percentage := mkRat (st.count * 100) (img1.width * img1.height)
        diff_bounds := some ⟨st.minX, st.minY, st.maxX - st.minX + 1, st.maxY - st.minY + 1⟩
        reason := some "Pixel mismatch detected" }
    else
      { diff_detected := false
        mismatch_percentage := 0
        diff_bounds := none
        reason := none }

/-- The external world one `verify` call observes: verification-command outcome,
screenshot capture outcome, and the golden/actual images on disk. -/
structure VerifyWorld where
  cmdSuccess : Bool
  cmdStdout : String
  cmdStderr : String
  screenshotOk : Bool
  actualExists : Bool
  goldenExists : Bool
  goldenDecodes : Bool
  actualDecodes : Bool
  golden : Image
  actual : Image

/-- Model of `verify_visual` (`visual_diff.rs:24-141`): screenshot capture,
existence and decode checks in source order, then image comparison.  A
missing golden image is an `Err`, reached only after the screenshot
succeeded. -/
def verifyVisual (w : VerifyWorld) (goldenPath : String) : Except String VisualDiffReport :=
  if w.screenshotOk = false then
    .error "Playwright screenshot capture failed"
  else if w.actualExists = false then
    .error "Playwright finished but actual.png was not created"
  else if w.goldenExists = false then
    .error ("Golden image not found at " ++ goldenPath)
  else if w.goldenDecodes = false then
    .error "Failed to decode golden image"
  else if w.actualDecodes = false then
    .error "Failed to decode actual image"
  else
    .ok (compareImages w.golden w.actual)

/-! ## Execution loop (`execution_loop.rs`) -/

/-- The ticket fields `run_with_handshake` consumes (`verification.command`,
`verification.golden_image`, `verification.max_retries`). -/
structure Ticket where
  command : String
  golden_image : Option String
  max_retries : Nat

/-- `execution_loop.rs`, `ExecutionResult`. -/
structure ExecutionResult where
  success : Bool
  confidence : ℚ
  errors : List String
  deriving DecidableEq

/-- Rendering of a visual-diff failure
(`Visual Verification Failed: …`); the exact float/debug formatting of the
Rust message is abstracted by `toString`. -/
def visualFailMsg (r : VisualDiffReport) : String :=
  "Visual Verification Failed: " ++ toString r.mismatch_percentage

/-- Model of `ExecutionLoop::verify` (`execution_loop.rs:342-370`): run the
shell command when non-empty (non-zero exit fails with captured output),
then the visual check when a golden image is configured. -/
def verify (t : Ticket) (w : VerifyWorld) : Except String Unit :=
  if t.command ≠ "" ∧ w.cmdSuccess = false then
    .error ("Command Failed:\nSTDOUT:\n" ++ w.cmdStdout ++ "\nSTDERR:\n" ++ w.cmdStderr)
  else
    match t.golden_image with
    | none => .ok ()
    | some goldenPath =>
      match verifyVisual w goldenPath with
      | .error e => .error e
      | .ok report =>
        if report.diff_detected then .error (visualFailMsg report) else .ok ()

/-- What one loop iteration observes: the agent subprocess outcome (with the
working tree it leaves behind) and the verification world. -/
structure AttemptEnv (α : Type) where
  agentResult : Except String String
  treeAfterAgent : α
  world : VerifyWorld

/-- The pre-run world: git cleanliness and the pre-run working tree. -/
structure World (α : Type) where
  gitDirty : Bool
  tree : α

/-- The loop-carried state of `run_with_handshake`: `attempts`,
`previous_errors`, `final_confidence` and the working tree. -/
structure LoopState (α : Type) where
  attempts : Nat
  errors : List String
  conf : ℚ
  tree : α

/-- The retry loop of `run_with_handshake` (`execution_loop.rs:53-87`),
with fuel `max_retries - attempts`.  Iteration `k` (the value of `attempts`
at its start) consumes `env k`.  Returns the final state and the success
flag. -/
def runLoop {α : Type} (t : Ticket) (env : Nat → AttemptEnv α) :
    Nat → LoopState α → LoopState α × Bool
  | 0, s => (s, false)
  | fuel + 1, s =>
    match (env s.attempts).agentResult with
    | .error e =>
      runLoop t env fuel
        { s with errors := s.errors ++ ["Agent Execution Failed: " ++ e]
                 attempts := s.attempts + 1 }
    | .ok out =>
      let s1 := { s with tree := (env s.attempts).treeAfterAgent }
      let s2 :=
        match extractConfidence out with
        | some c => { s1 with conf := c }
        | none => s1
      match verify t (env s.attempts).world with
      | .ok _ => (s2, true)
      | .error e =>
        runLoop t env fuel
          { s2 with errors := s2.errors ++ ["Verification Failed:\n" ++ e]
                    attempts := s2.attempts + 1 }

/-- The initial loop state: zero attempts, no errors, default confidence
`1.0`, pre-run tree. -/
def initLoopState {α : Type} (w : World α) : LoopState α :=
  ⟨0, [], 1, w.tree⟩

/-- Model of `ExecutionLoop::run_with_handshake`
(`execution_loop.rs:38-108`): abort on a dirty workspace; otherwise run the
retry loop.  On success the result carries `final_confidence` and the
post-agent tree (the workspace stays as the agent left it); on exhaustion
the tree is hard-reset to the pre-run state and the result carries
confidence `0.0`.  Git plumbing (detach/reset) is modelled as infallible;
the returned tree captures its effect. -/
def runWithHandshake {α : Type} (t : Ticket) (env : Nat → AttemptEnv α)
    (w : World α) : Except String (ExecutionResult × α) :=
  if w.gitDirty then
    .error "Workspace is dirty. Please commit or stash changes before running execution loop."
  else
    let r := runLoop t env t.max_retries (initLoopState w)
    if r.2 then
      .ok ({ success := true, confidence := r.1.conf, errors := r.1.errors }, r.1.tree)
    else
      .ok ({ success := false, confidence := 0, errors := r.1.errors }, w.tree)

/-! ## Dependency graph and `get_context` (`ast.rs:209-253`)

The petgraph `DiGraph<FileNode, ()>` is modelled by its node paths and
directed edges; `node_map` membership is membership in `nodes`.  The
`visited` hash map is an association list where an insert shadows earlier
entries. -/

/-- The workspace dependency graph: node paths and directed import edges. -/
structure Graph where
  nodes : List String
  edges : List (String × String)

/-- Outgoing neighbors of `p` (petgraph `neighbors` on a directed graph). -/
def successors (g : Graph) (p : String) : List String :=
  (g.edges.filter (fun e => e.1 == p)).map (fun e => e.2)

/-- The `visited` map: an association list, latest insert first. -/
abbrev Visited := List (String × Nat)

/-- The inner neighbor-relaxation loop of `get_context` (`ast.rs:225-235`):
for each neighbor at `new_depth = depth+1`, insert when unvisited or
strictly improved, and enqueue when `new_depth < 3`. -/
def relaxNeighbors (depth : Nat) : List String → Visited → List (String × Nat) →
    Visited × List (String × Nat)
  | [], v, q => (v, q)
  | n :: rest, v, q =>
    match List.lookup n v with
    | none =>
      relaxNeighbors depth rest ((n, depth + 1) :: v)
        (if depth + 1 < 3 then q ++ [(n, depth + 1)] else q)
    | some old =>
      if depth + 1 < old then
        relaxNeighbors depth rest ((n, depth + 1) :: v)
          (if depth + 1 < 3 then q ++ [(n, depth + 1)] else q)
      else
        relaxNeighbors depth rest v q

/-- The BFS work loop of `get_context` (`ast.rs:220-236`): pop from the
front, skip expansion at depth ≥ 2, otherwise relax all successors.  The
source loop runs until the queue is empty; here it is fuel-indexed and
`bfsFuel` below provably dominates the number of iterations. -/
def bfsLoop (g : Graph) : Nat → Visited → List (String × Nat) → Visited
  | _, v, [] => v
  | 0, v, _ :: _ => v
  | fuel + 1, v, (p, depth) :: rest =>
    if 2 ≤ depth then bfsLoop g fuel v rest
    else
      let r := relaxNeighbors depth (successors g p) v rest
      bfsLoop g fuel r.1 r.2

/-- Seed initialisation of `get_context` (`ast.rs:213-218`): seeds present
in the node map enter `visited` at depth 0 and are enqueued; unknown seeds
are dropped. -/
def seedInit (g : Graph) (seeds : List String) : Visited × List (String × Nat) :=
  seeds.foldl
    (fun acc f => if f ∈ g.nodes then ((f, 0) :: acc.1, acc.2 ++ [(f, 0)]) else acc)
    ([], [])

/-- Fuel that dominates the BFS iteration count (each iteration pops one
entry; each push strictly lowers a node's depth weight, bounded by 3). -/
def bfsFuel (g : Graph) (seeds : List String) : Nat :=
  seeds.length + 3 * g.nodes.length

/-- The depth map computed by `get_context`'s BFS. -/
def getContextDepths (g : Graph) (seeds : List String) : Visited :=
  let s := seedInit g seeds
  bfsLoop g (bfsFuel g seeds) s.1 s.2

/-- Insertion into a list sorted by path (models the effect of
`results.sort_by(|a, b| a.0.cmp(&b.0))`; paths are unique, so any
comparison-sort yields the same list). -/
def insertByPath (x : String × String) : List (String × String) → List (String × String)
  | [] => [x]
  | y :: ys => if x.1 ≤ y.1 then x :: y :: ys else y :: insertByPath x ys

/-- Sort context entries by path. -/
def sortByPath (l : List (String × String)) : List (String × String) :=
  l.foldr insertByPath []

/-- Model of `DependencyGraph::get_context` (`ast.rs:209-253`): BFS depth
map, then one entry per visited readable node — full content at depth ≤ 1,
degraded content at depth 2 — sorted by path.  `disk` models
`fs::read_to_string` relative to the workspace root. -/
def getContext (g : Graph) (tsP : TsParse) (disk : String → Option String)
    (seeds : List String) : List (String × String) :=
  let vis := getContextDepths g seeds
  let results := g.nodes.filterMap (fun p =>
    match vis.lookup p with
    | none => none
    | some depth =>
      match disk p with
      | none => none
      | some content =>
        if depth ≤ 1 then some (p, content)
        else if depth = 2 then some (p, pruneContent tsP p content)
        else none)
  sortByPath results

/-- `Reach g seeds d p`: there is a walk of length `d` in `g` from a seed
that is a graph node to `p`.  The true minimum BFS distance of `p` is the
least such `d`. -/
inductive Reach (g : Graph) (seeds : List String) : Nat → String → Prop
  | seed {p : String} : p ∈ seeds → p ∈ g.nodes → Reach g seeds 0 p
  | step {d : Nat} {p n : String} :
      Reach g seeds d p → n ∈ successors g p → Reach g seeds (d + 1) n

/-! ## Specification predicates and proof apparatus -/

/-- The position after a statement from which `prune_ts` continues copying
(`last_pos` after processing the statement). -/
def stmtEndPos : Stmt → Nat
  | .functionDecl _ (some b) => b.stop
  | .classDecl _ b => b.stop
  | s => s.span.stop

/-- Well-formedness of one statement's spans relative to the current copy
position and the content length (guaranteed by the real parser). -/
def StmtOk (len cur : Nat) : Stmt → Prop
  | .functionDecl sp (some b) =>
    cur ≤ sp.start ∧ sp.start ≤ b.start ∧ b.start ≤ b.stop ∧ b.stop ≤ len
  | .classDecl sp b =>
    cur ≤ sp.start ∧ sp.start ≤ b.start ∧ b.start ≤ b.stop ∧ b.stop ≤ len
  | s => cur ≤ s.span.stop ∧ s.span.stop ≤ len

/-- Spans of a statement list are in source order and within bounds. -/
def SpansOk (len : Nat) : Nat → List Stmt → Prop
  | _, [] => True
  | cur, s :: rest => StmtOk len cur s ∧ SpansOk len (stmtEndPos s) rest

/-- "Nothing left to elide": every function body and class member list in
the content is already the placeholder `prune_ts` would write. -/
def ElidesNothing (content : String) : Stmt → Prop
  | .functionDecl _ (some b) =>
    slice content b.start b.stop = "\x7b /* body pruned */ \x7d"
  | .classDecl _ b =>
    slice content b.start b.stop = "\x7b /* class members pruned */ \x7d"
  | _ => True

instance instDecStmtOk (len cur : Nat) (s : Stmt) : Decidable (StmtOk len cur s) :=
  match s with
  | .functionDecl _ (some _) => inferInstanceAs (Decidable (_ ∧ _ ∧ _ ∧ _))
  | .functionDecl _ none => inferInstanceAs (Decidable (_ ∧ _))
  | .classDecl _ _ => inferInstanceAs (Decidable (_ ∧ _ ∧ _ ∧ _))
  | .importDecl _ _ => inferInstanceAs (Decidable (_ ∧ _))
  | .exportAllDecl _ _ => inferInstanceAs (Decidable (_ ∧ _))
  | .exportNamedDecl _ _ => inferInstanceAs (Decidable (_ ∧ _))
  | .tsTypeAlias _ => inferInstanceAs (Decidable (_ ∧ _))
  | .tsInterface _ => inferInstanceAs (Decidable (_ ∧ _))
  | .variableDecl _ => inferInstanceAs (Decidable (_ ∧ _))
  | .other _ => inferInstanceAs (Decidable (_ ∧ _))

instance instDecSpansOk (len : Nat) : (cur : Nat) → (stmts : List Stmt) →
    Decidable (SpansOk len cur stmts)
  | _, [] => isTrue trivial
  | cur, s :: rest =>
    @instDecidableAnd _ _ (instDecStmtOk len cur s)
      (instDecSpansOk len (stmtEndPos s) rest)

instance instDecElidesNothing (content : String) (s : Stmt) :
    Decidable (ElidesNothing content s) :=
  match s with
  | .functionDecl _ (some _) => inferInstanceAs (Decidable (_ = _))
  | .functionDecl _ none => isTrue trivial
  | .classDecl _ _ => inferInstanceAs (Decidable (_ = _))
  | .importDecl _ _ => isTrue trivial
  | .exportAllDecl _ _ => isTrue trivial
  | .exportNamedDecl _ _ => isTrue trivial
  | .tsTypeAlias _ => isTrue trivial
  | .tsInterface _ => isTrue trivial
  | .variableDecl _ => isTrue trivial
  | .other _ => isTrue trivial

/-- The confidence extracted by attempt `i`, if its agent invocation
succeeded and the output yielded one. -/
def extractedAt {α : Type} (env : Nat → AttemptEnv α) (i : Nat) : Option ℚ :=
  match (env i).agentResult with
  | .error _ => none
  | .ok out => extractConfidence out

/-- The most recent confidence extracted among attempts `0 … n-1`. -/
def lastExtractedUpto {α : Type} (env : Nat → AttemptEnv α) : Nat → Option ℚ
  | 0 => none
  | n + 1 =>
    match extractedAt env n with
    | some c => some c
    | none => lastExtractedUpto env n

/-- Monotone improvement of a visited map: every recorded depth stays
recorded with an equal or smaller value. -/
def Improves (v v' : Visited) : Prop :=
  ∀ p d, v.lookup p = some d → ∃ d', d' ≤ d ∧ v'.lookup p = some d'

/-- Depth weight used by the BFS termination measure. -/
def depthWeight : Option Nat → Nat
  | none => 3
  | some d => min d 3

/-- Termination potential of a visited map over the graph's nodes. -/
def potential (nodes : List String) (v : Visited) : Nat :=
  (nodes.map (fun p => depthWeight (v.lookup p))).sum

/-- Termination measure of a BFS state. -/
def bfsMeasure (g : Graph) (v : Visited) (q : List (String × Nat)) : Nat :=
  potential g.nodes v + q.length

/-! ### Concrete witness inputs -/

/-- An already-degraded DialectA source: one function whose body is the
placeholder. -/
def c7Content : String := "function f() \x7b /* body pruned */ \x7d"

/-- Parse oracle for `c7Content`: one function declaration whose body span
covers the placeholder. -/
def c7Parse : TsParse := fun s =>
  if s = c7Content then some [Stmt.functionDecl ⟨0, 34⟩ (some ⟨13, 34⟩)] else none

/-- A 51-line content equal to its own first-50-lines truncation plus the
pruning marker: a fixed point of Other-dialect degradation. -/
def c10Fixed : String :=
  String.intercalate "\n" (List.replicate 50 "x") ++ "\n... (pruned)"

deriving instance DecidableEq for Except

/-- A placeholder image for worlds whose run never compares pixels. -/
def dummyImg : Image := ⟨0, 0, fun _ _ => []⟩

/-- C1 counterexample: ticket with one retry and a failing shell check. -/
def c1xTicket : Ticket := ⟨"check", none, 1⟩

/-- C1 counterexample: the verification command exits non-zero. -/
def c1xVW : VerifyWorld :=
  ⟨false, "outX", "errX", true, true, true, true, true, dummyImg, dummyImg⟩

/-- C1 counterexample: the agent reports confidence 0.7 every attempt. -/
def c1xEnv : Nat → AttemptEnv Nat :=
  fun _ => ⟨.ok "\x7b\"confidence\": 0.7\x7d", 1, c1xVW⟩

/-- C1 counterexample: clean pre-run world. -/
def c1xWorld : World Nat := ⟨false, 0⟩

/-- C1 witness: ticket whose empty command always verifies. -/
def c1wTicket : Ticket := ⟨"", none, 1⟩

/-- C1 witness: a passing verification world. -/
def c1wVW : VerifyWorld :=
  ⟨true, "", "", true, true, true, true, true, dummyImg, dummyImg⟩

/-- C1 witness: the agent reports confidence 0.5. -/
def c1wEnv : Nat → AttemptEnv Nat :=
  fun _ => ⟨.ok "\x7b\"confidence\": 0.5\x7d", 7, c1wVW⟩

/-- C1 witness: clean pre-run world. -/
def c1wWorld : World Nat := ⟨false, 0⟩

/-- C2 counterexample: golden image configured, retry budget 2. -/
def c2xTicket : Ticket := ⟨"", some "g.png", 2⟩

/-- C2 counterexample: screenshot succeeds but the golden file is absent. -/
def c2xVW : VerifyWorld :=
  ⟨true, "", "", true, true, false, true, true, dummyImg, dummyImg⟩

/-- C2 counterexample: agent always succeeds. -/
def c2xEnv : Nat → AttemptEnv Nat := fun _ => ⟨.ok "done", 1, c2xVW⟩

/-- C2 counterexample: clean pre-run world. -/
def c2xWorld : World Nat := ⟨false, 0⟩

/-- C2 witness: golden image configured, retry budget 1. -/
def c2wTicket : Ticket := ⟨"", some "golden/home.png", 1⟩

/-- C2 witness: screenshot succeeds but the golden file is absent. -/
def c2wVW : VerifyWorld :=
  ⟨true, "", "", true, true, false, true, true, dummyImg, dummyImg⟩

/-- C2 witness: agent always succeeds. -/
def c2wEnv : Nat → AttemptEnv Nat := fun _ => ⟨.ok "ok", 2, c2wVW⟩

/-- C2 witness: clean pre-run world with tree 5. -/
def c2wWorld : World Nat := ⟨false, 5⟩

/-- C4 witness: non-empty command, retry budget 2. -/
def c4Ticket : Ticket := ⟨"npm test", none, 2⟩

/-- C4 witness: the command always exits non-zero with captured output. -/
def c4VW : VerifyWorld :=
  ⟨false, "so", "se", true, true, true, true, true, dummyImg, dummyImg⟩

/-- C4 witness: the agent always succeeds, leaving tree 3. -/
def c4Env : Nat → AttemptEnv Nat := fun _ => ⟨.ok "agent out", 3, c4VW⟩

/-- C4 witness: clean pre-run world with tree 9. -/
def c4World : World Nat := ⟨false, 9⟩

/-- C3 witness: the chain graph a → b → c → d from the spec's scenario. -/
def c3Graph : Graph :=
  ⟨["a.ts", "b.ts", "c.ts", "d.ts"],
   [("a.ts", "b.ts"), ("b.ts", "c.ts"), ("c.ts", "d.ts")]⟩

/-- C5 counterexample: a one-node graph with no edges. -/
def c5Graph : Graph := ⟨["lib.rs"], []⟩

/-- C5 counterexample: every path reads successfully from disk. -/
def c5Disk : String → Option String := fun _ => some "mod a;"

/-- C5 witness: a one-node graph whose node is the seed. -/
def c5wGraph : Graph := ⟨["main.rs"], []⟩

/-- C5 witness: only the seed file is on disk. -/
def c5wDisk : String → Option String :=
  fun p => if p = "main.rs" then some "fn main() \x7b\x7d" else none

/-- A uniform black 2×2 RGB image. -/
def c9Img1 : Image := ⟨2, 2, fun _ _ => [0, 0, 0]⟩

/-- The same 2×2 image with a single differing pixel at (1, 0). -/
def c9Img2 : Image :=
  ⟨2, 2, fun x y => if x = 1 ∧ y = 0 then [5, 0, 0] else [0, 0, 0]⟩

/-! ## String lemmas -/

theorem asString_append (l1 l2 : List Char) :
    (l1 ++ l2).asString = l1.asString ++ l2.asString := rfl

theorem string_append_assoc (a b c : String) : a ++ b ++ c = a ++ (b ++ c) := by
  apply String.ext
  simp [String.data_append]

theorem concatStrings_aux (l : List String) :
    ∀ a : String, l.foldl (fun a b => a ++ b) a = a ++ concatStrings l := by
  induction l with
  | nil =>
    intro a
    apply String.ext
    simp [concatStrings, String.data_append]
  | cons x rest ih =>
    intro a
    show List.foldl _ (a ++ x) rest = _
    rw [ih (a ++ x)]
    have hx : concatStrings (x :: rest) = List.foldl (fun a b => a ++ b) ("" ++ x) rest := rfl
    rw [hx, ih ("" ++ x)]
    apply String.ext
    simp [String.data_append]

theorem concatStrings_cons (x : String) (l : List String) :
    concatStrings (x :: l) = x ++ concatStrings l := by
  have hx : concatStrings (x :: l) = List.foldl (fun a b => a ++ b) ("" ++ x) l := rfl
  rw [hx, concatStrings_aux l ("" ++ x)]
  apply String.ext
  simp [String.data_append]

theorem concatStrings_append (l1 l2 : List String) :
    concatStrings (l1 ++ l2) = concatStrings l1 ++ concatStrings l2 := by
  induction l1 with
  | nil =>
    apply String.ext
    simp [concatStrings, String.data_append]
  | cons x rest ih =>
    show concatStrings (x :: (rest ++ l2)) = _
    rw [concatStrings_cons, ih, concatStrings_cons, string_append_assoc]

theorem slice_append (s : String) (a b c : Nat) (h1 : a ≤ b) (h2 : b ≤ c) :
    slice s a b ++ slice s b c = slice s a c := by
  unfold slice
  rw [← asString_append]
  apply congrArg
  have hc : c - a = (b - a) + (c - b) := by omega
  rw [hc, List.take_add, List.drop_drop]
  have hb : a + (b - a) = b := by omega
  rw [hb]

theorem concatStrings_singleton (x : String) : concatStrings [x] = x := by
  rw [concatStrings_cons]
  apply String.ext
  simp [concatStrings, String.data_append]

theorem asString_toList (s : String) : s.toList.asString = s := by
  cases s
  rfl

theorem slice_zero_length (s : String) : slice s 0 s.length = s := by
  unfold slice
  rw [List.drop_zero, Nat.sub_zero]
  have h : s.length = s.toList.length := rfl
  rw [h, List.take_length, asString_toList]

/-! ## Content degradation lemmas (C7, C8, C10) -/

theorem concat_chunk (content : String) (parts pieces : List String)
    (cur e : Nat) (hp : concatStrings pieces = slice content cur e)
    (h1 : cur ≤ e) (h2 : e ≤ content.length) :
    concatStrings ((parts ++ pieces) ++ [slice content e content.length]) =
      concatStrings (parts ++ [slice content cur content.length]) := by
  rw [concatStrings_append, concatStrings_append, concatStrings_singleton,
    string_append_assoc, hp,
    slice_append content cur e content.length h1 h2,
    concatStrings_append, concatStrings_singleton]

theorem pruneFold_eq (content : String) :
    ∀ (stmts : List Stmt) (cur : Nat) (parts : List String),
      SpansOk content.length cur stmts →
      (∀ s ∈ stmts, ElidesNothing content s) →
      cur ≤ content.length →
      concatStrings ((stmts.foldl (pruneStep content) (parts, cur)).1 ++
          [slice content (stmts.foldl (pruneStep content) (parts, cur)).2 content.length]) =
        concatStrings (parts ++ [slice content cur content.length]) := by
  intro stmts
  induction stmts with
  | nil => intro cur parts _ _ _; rfl
  | cons s rest ih =>
    intro cur parts hok hel hcur
    obtain ⟨hs, hrest⟩ := hok
    have hel_s : ElidesNothing content s := hel s (by simp)
    have hel_rest : ∀ x ∈ rest, ElidesNothing content x := fun x hx => hel x (by simp [hx])
    match s with
    | .functionDecl sp (some b) =>
      obtain ⟨hb1, hb2, hb3, hb4⟩ := hs
      have hstep : pruneStep content (parts, cur) (.functionDecl sp (some b)) =
          (parts ++ [slice content cur sp.start, slice content sp.start b.start,
            "\x7b /* body pruned */ \x7d"], b.stop) := rfl
      simp only [List.foldl_cons]
      rw [hstep, ih b.stop _ hrest hel_rest hb4]
      have hpieces : concatStrings [slice content cur sp.start,
          slice content sp.start b.start, "\x7b /* body pruned */ \x7d"] =
          slice content cur b.stop := by
        have helq : slice content b.start b.stop = "\x7b /* body pruned */ \x7d" := hel_s
        rw [concatStrings_cons, concatStrings_cons, concatStrings_singleton, ← helq,
          slice_append content sp.start b.start b.stop hb2 hb3,
          slice_append content cur sp.start b.stop hb1 (le_trans hb2 hb3)]
      exact concat_chunk content parts _ cur b.stop hpieces
        (le_trans hb1 (le_trans hb2 hb3)) hb4
    | .classDecl sp b =>
      obtain ⟨hb1, hb2, hb3, hb4⟩ := hs
      have hstep : pruneStep content (parts, cur) (.classDecl sp b) =
          (parts ++ [slice content cur sp.start, slice content sp.start b.start,
            "\x7b /* class members pruned */ \x7d"], b.stop) := rfl
      simp only [List.foldl_cons]
      rw [hstep, ih b.stop _ hrest hel_rest hb4]
      have hpieces : concatStrings [slice content cur sp.start,
          slice content sp.start b.start, "\x7b /* class members pruned */ \x7d"] =
          slice content cur b.stop := by
        have helq : slice content b.start b.stop = "\x7b /* class members pruned */ \x7d" := hel_s
        rw [concatStrings_cons, concatStrings_cons, concatStrings_singleton, ← helq,
          slice_append content sp.start b.start b.stop hb2 hb3,
          slice_append content cur sp.start b.stop hb1 (le_trans hb2 hb3)]
      exact concat_chunk content parts _ cur b.stop hpieces
        (le_trans hb1 (le_trans hb2 hb3)) hb4
    | .importDecl sp src =>
      obtain ⟨hb1, hb2⟩ := hs
      simp only [List.foldl_cons]
      have hstep : pruneStep content (parts, cur) (.importDecl sp src) =
          (parts ++ [slice content cur sp.stop], sp.stop) := rfl
      rw [hstep, ih sp.stop _ hrest hel_rest hb2]
      exact concat_chunk content parts _ cur sp.stop (concatStrings_singleton _) hb1 hb2
    | .exportAllDecl sp src =>
      obtain ⟨hb1, hb2⟩ := hs
      simp only [List.foldl_cons]
      have hstep : pruneStep content (parts, cur) (.exportAllDecl sp src) =
          (parts ++ [slice content cur sp.stop], sp.stop) := rfl
      rw [hstep, ih sp.stop _ hrest hel_rest hb2]
      exact concat_chunk content parts _ cur sp.stop (concatStrings_singleton _) hb1 hb2
    | .exportNamedDecl sp src =>
      obtain ⟨hb1, hb2⟩ := hs
      simp only [List.foldl_cons]
      have hstep : pruneStep content (parts, cur) (.exportNamedDecl sp src) =
          (parts ++ [slice content cur sp.stop], sp.stop) := rfl
      rw [hstep, ih sp.stop _ hrest hel_rest hb2]
      exact concat_chunk content parts _ cur sp.stop (concatStrings_singleton _) hb1 hb2
    | .tsTypeAlias sp =>
      obtain ⟨hb1, hb2⟩ := hs
      simp only [List.foldl_cons]
      have hstep : pruneStep content (parts, cur) (.tsTypeAlias sp) =
          (parts ++ [slice content cur sp.stop], sp.stop) := rfl
      rw [hstep, ih sp.stop _ hrest hel_rest hb2]
      exact concat_chunk content parts _ cur sp.stop (concatStrings_singleton _) hb1 hb2
    | .tsInterface sp =>
      obtain ⟨hb1, hb2⟩ := hs
      simp only [List.foldl_cons]
      have hstep : pruneStep content (parts, cur) (.tsInterface sp) =
          (parts ++ [slice content cur sp.stop], sp.stop) := rfl
      rw [hstep, ih sp.stop _ hrest hel_rest hb2]
      exact concat_chunk content parts _ cur sp.stop (concatStrings_singleton _) hb1 hb2
    | .functionDecl sp none =>
      obtain ⟨hb1, hb2⟩ := hs
      simp only [List.foldl_cons]
      have hstep : pruneStep content (parts, cur) (.functionDecl sp none) =
          (parts ++ [slice content cur sp.stop], sp.stop) := rfl
      rw [hstep, ih sp.stop _ hrest hel_rest hb2]
      exact concat_chunk content parts _ cur sp.stop (concatStrings_singleton _) hb1 hb2
    | .variableDecl sp =>
      obtain ⟨hb1, hb2⟩ := hs
      simp only [List.foldl_cons]
      have hstep : pruneStep content (parts, cur) (.variableDecl sp) =
          (parts ++ [slice content cur sp.stop], sp.stop) := rfl
      rw [hstep, ih sp.stop _ hrest hel_rest hb2]
      exact concat_chunk content parts _ cur sp.stop (concatStrings_singleton _) hb1 hb2
    | .other sp =>
      obtain ⟨hb1, hb2⟩ := hs
      simp only [List.foldl_cons]
      have hstep : pruneStep content (parts, cur) (.other sp) =
          (parts ++ [slice content cur sp.stop], sp.stop) := rfl
      rw [hstep, ih sp.stop _ hrest hel_rest hb2]
      exact concat_chunk content parts _ cur sp.stop (concatStrings_singleton _) hb1 hb2

/-- **C7**: for every DialectA (TypeScript) source text that is already
degraded — it parses, its spans are well-formed, and every function body /
class member list present is already the pruning placeholder, so nothing
remains to elide — applying the content degrader again returns the text
unchanged (likewise, trivially, when the degraded text does not parse). -/
theorem claim_C7 (parse : TsParse) (content : String)
    (h : parse content = none ∨
      ∃ stmts, parse content = some stmts ∧ SpansOk content.length 0 stmts ∧
        ∀ s ∈ stmts, ElidesNothing content s) :
    pruneTs parse content = content := by
  unfold pruneTs
  rcases h with h | ⟨stmts, hp, hok, hel⟩
  · rw [h]
  · rw [hp]
    show concatStrings ((stmts.foldl (pruneStep content) ([], 0)).1 ++
      [slice content (stmts.foldl (pruneStep content) ([], 0)).2 content.length]) = content
    rw [pruneFold_eq content stmts 0 [] hok hel (Nat.zero_le _)]
    rw [List.nil_append, concatStrings_singleton, slice_zero_length]

/-- Witness for C7 at a concrete degraded source. -/
theorem claim_C7_witness : pruneTs c7Parse c7Content = c7Content := by
  apply claim_C7
  right
  refine ⟨[Stmt.functionDecl ⟨0, 34⟩ (some ⟨13, 34⟩)], ?_, ?_, ?_⟩
  · decide
  · decide
  · decide

/-- **C8**: parse errors are never propagated — when the TypeScript parser
fails the import list is empty, when the Rust parser fails the import list
is empty, and when the TypeScript parser fails content degradation returns
the original content unmodified. -/
theorem claim_C8 (tsP : TsParse) (rsP : RsParse) (content : String)
    (hts : tsP content = none) (hrs : rsP content = none) :
    parseTsImports tsP content = [] ∧ parseRsImports rsP content = [] ∧
      pruneTs tsP content = content := by
  refine ⟨?_, ?_, ?_⟩ <;> simp [parseTsImports, parseRsImports, pruneTs, hts, hrs]

/-- Witness for C8 on a concrete unparsable input. -/
theorem claim_C8_witness :
    parseTsImports (fun _ => none) "let x =" = [] ∧
      parseRsImports (fun _ => none) "let x =" = [] ∧
      pruneTs (fun _ => none) "let x =" = "let x =" :=
  claim_C8 (fun _ => none) (fun _ => none) "let x =" rfl rfl

set_option maxRecDepth 40000 in
/-- **C10** counterexample: a 51-line content whose 51st line is the marker
is returned *unchanged* by Other-dialect degradation, refuting "never
returns the content unchanged". -/
theorem claim_C10_counterexample :
    pruneContent (fun _ => none) "notes.txt" c10Fixed = c10Fixed := by decide

/-- **C10** (amended): for every non-DialectA/B path, the degraded content
is the file's first min(50, total) lines joined by newlines with the
literal suffix "\n... (pruned)" appended — the marker is appended even when
the file has 50 or fewer lines.  Degradation is not idempotent in general
(witnessed at a one-line content), but contents of more than 50 lines whose
tail already equals the marker are returned unchanged. -/
theorem claim_C10 :
    (∀ (parse : TsParse) (path content : String), isTsPath path = false →
      pruneContent parse path content =
        String.intercalate "\n" ((rustLines content).take 50) ++ "\n... (pruned)") ∧
    pruneContent (fun _ => none) "a.txt" (pruneContent (fun _ => none) "a.txt" "a") ≠
      pruneContent (fun _ => none) "a.txt" "a" := by
  constructor
  · intro parse path content h
    unfold pruneContent
    rw [h]
    simp
  · decide

/-- Witness for C10 at a concrete two-character file. -/
theorem claim_C10_witness :
    pruneContent (fun _ => none) "b.txt" "hi" = "hi\n... (pruned)" := by
  rw [claim_C10.1 (fun _ => none) "b.txt" "hi" (by decide)]
  decide

/-! ## Confidence extraction lemmas (C6) -/

theorem findIdx_none_all {p : Char → Bool} : ∀ (cs : List Char) (i : Nat),
    List.findIdx? p cs i = none → ∀ x ∈ cs, p x = false := by
  intro cs
  induction cs with
  | nil => intro i _ x hx; cases hx
  | cons a rest ih =>
    intro i h x hx
    rw [List.findIdx?_cons] at h
    by_cases ha : p a = true
    · rw [if_pos ha] at h; cases h
    · rw [if_neg ha] at h
      cases hx with
      | head => simpa using ha
      | tail _ h2 => exact ih (i + 1) h x h2

theorem findIdx_isSome_of_mem {c : Char} {cs : List Char} (h : c ∈ cs) :
    (List.findIdx? (fun x => x = c) cs).isSome := by
  match hfi : List.findIdx? (fun x => x = c) cs with
  | some i => simp
  | none =>
    have := findIdx_none_all cs 0 hfi c h
    simp at this

theorem firstIdx_isSome_of_mem {c : Char} {cs : List Char} (h : c ∈ cs) :
    (firstIdx cs c).isSome :=
  findIdx_isSome_of_mem h

theorem lastIdx_isSome_of_mem {c : Char} {cs : List Char} (h : c ∈ cs) :
    (lastIdx cs c).isSome := by
  unfold lastIdx
  have hm : c ∈ cs.reverse := by simpa using h
  have := @findIdx_isSome_of_mem c cs.reverse hm
  match hfi : List.findIdx? (fun x => x = c) cs.reverse with
  | some i => simp
  | none => rw [hfi] at this; simp at this

/-- **C6** counterexample: the output `"confidence": 0.9` contains a
recognizable confidence key (the regex fallback extracts 0.9 from it), yet
`extract_confidence` yields nothing because the output has no `{`, so the
`?` on `find('{')` returns before the fallback is reached. -/
theorem claim_C6_counterexample :
    extractConfidence "\"confidence\": 0.9" = none ∧
      regexFallback "\"confidence\": 0.9" = some ((9 : ℚ) / 10) := by
  constructor
  · decide
  · have h : regexFallback "\"confidence\": 0.9" = some (mkRat 9 10) := by decide
    rw [h]
    norm_num [Rat.mkRat_eq_div]

/-- **C6** (amended): when the agent output contains both a `{` and a `}`,
extraction takes the substring from the first `{` to the last `}` and
strict-parses a numeric confidence field from it when the first `{`
precedes the last `}`; on parse failure or absence of that field it falls
back to the regex scan, so any such output containing a recognizable
confidence key yields a value — either the strict-parsed field or the
regex capture.  (Outputs missing either brace yield no value even when a
recognizable key is present.) -/
theorem claim_C6 (out : String) (c : ℚ)
    (hb1 : '\x7b' ∈ out.toList) (hb2 : '\x7d' ∈ out.toList)
    (hre : regexFallback out = some c) :
    ∃ c', extractConfidence out = some c' ∧
      (c' = c ∨
        ∃ js je v, firstIdx out.toList '\x7b' = some js ∧
          lastIdx out.toList '\x7d' = some je ∧ js < je ∧
          serdeFromStr (slice out js (je + 1)) = some v ∧
          jsonConfidence v = some c') := by
  obtain ⟨js, hjs⟩ := Option.isSome_iff_exists.mp (firstIdx_isSome_of_mem hb1)
  obtain ⟨je, hje⟩ := Option.isSome_iff_exists.mp (lastIdx_isSome_of_mem hb2)
  simp only [extractConfidence, hjs, hje]
  by_cases hlt : js < je
  · rw [if_pos hlt]
    match hp : serdeFromStr (slice out js (je + 1)) with
    | some v =>
      match hc : jsonConfidence v with
      | some c0 =>
        refine ⟨c0, ?_, Or.inr ⟨js, je, v, rfl, rfl, hlt, hp, hc⟩⟩
        show (match jsonConfidence v with
          | some c1 => some c1
          | none => regexFallback out) = some c0
        rw [hc]
      | none =>
        refine ⟨c, ?_, Or.inl rfl⟩
        show (match jsonConfidence v with
          | some c1 => some c1
          | none => regexFallback out) = some c
        rw [hc]
        exact hre
    | none => exact ⟨c, hre, Or.inl rfl⟩
  · rw [if_neg hlt]
    exact ⟨c, hre, Or.inl rfl⟩

/-- Witness for C6 at a concrete braced output. -/
theorem claim_C6_witness :
    ∃ c', extractConfidence "\x7b\"confidence\": 0.5\x7d" = some c' ∧
      (c' = mkRat 5 10 ∨
        ∃ js je v,
          firstIdx ("\x7b\"confidence\": 0.5\x7d").toList '\x7b' = some js ∧
          lastIdx ("\x7b\"confidence\": 0.5\x7d").toList '\x7d' = some je ∧ js < je ∧
          serdeFromStr (slice "\x7b\"confidence\": 0.5\x7d" js (je + 1)) = some v ∧
          jsonConfidence v = some c') := by
  apply claim_C6
  · decide
  · decide
  · decide

/-! ## Visual diff lemmas (C9) -/

theorem diffFold_row_const (img1 img2 : Image) (y : Nat) (xs : List Nat)
    (st : DiffState)
    (h : ∀ x ∈ xs, pixelsMatch (img1.pix x y) (img2.pix x y) 0 = true) :
    xs.foldl (fun st x => diffStep img1 img2 st x y) st = st := by
  induction xs generalizing st with
  | nil => rfl
  | cons a rest ih =>
    rw [List.foldl_cons]
    have ha := h a (by simp)
    have hstep : diffStep img1 img2 st a y = st := by
      unfold diffStep
      rw [ha]
      simp
    rw [hstep]
    exact ih st (fun x hx => h x (by simp [hx]))

theorem diffFold_rows_const (img1 img2 : Image) (ys : List Nat) (st : DiffState)
    (h : ∀ y ∈ ys, ∀ x ∈ List.range img1.width,
      pixelsMatch (img1.pix x y) (img2.pix x y) 0 = true) :
    ys.foldl (fun st y => (List.range img1.width).foldl
      (fun st x => diffStep img1 img2 st x y) st) st = st := by
  induction ys generalizing st with
  | nil => rfl
  | cons a rest ih =>
    rw [List.foldl_cons, diffFold_row_const img1 img2 a _ st (h a (by simp))]
    exact ih st (fun y hy => h y (by simp [hy]))

theorem pixelScan_single (img1 img2 : Image) (x0 y0 : Nat)
    (hx : x0 < img1.width) (hy : y0 < img1.height)
    (hmis : pixelsMatch (img1.pix x0 y0) (img2.pix x0 y0) 0 = false)
    (hrest : ∀ x, x < img1.width → ∀ y, y < img1.height →
      ¬(x = x0 ∧ y = y0) → pixelsMatch (img1.pix x y) (img2.pix x y) 0 = true) :
    pixelScan img1 img2 = ⟨1, x0, x0, y0, y0⟩ := by
  unfold pixelScan
  have hYsplit : List.range img1.height =
      (List.range y0 ++ [y0]) ++ (List.range (img1.height - (y0 + 1))).map (y0 + 1 + ·) := by
    rw [← List.range_succ, ← List.range_add]
    congr 1
    omega
  rw [hYsplit, List.foldl_append, List.foldl_append]
  set innerF := fun (st : DiffState) (y : Nat) => (List.range img1.width).foldl
      (fun st x => diffStep img1 img2 st x y) st with hinner
  have hpre : List.foldl innerF ⟨0, img1.width, 0, img1.height, 0⟩ (List.range y0) =
      ⟨0, img1.width, 0, img1.height, 0⟩ := by
    apply diffFold_rows_const
    intro y hyv x hxv
    have hylt : y < y0 := List.mem_range.mp hyv
    have hxlt : x < img1.width := List.mem_range.mp hxv
    exact hrest x hxlt y (lt_trans hylt hy) (fun hc => by omega)
  rw [hpre]
  have hXsplit : List.range img1.width =
      (List.range x0 ++ [x0]) ++ (List.range (img1.width - (x0 + 1))).map (x0 + 1 + ·) := by
    rw [← List.range_succ, ← List.range_add]
    congr 1
    omega
  have hrow : innerF ⟨0, img1.width, 0, img1.height, 0⟩ y0 = ⟨1, x0, x0, y0, y0⟩ := by
    rw [hinner]
    show (List.range img1.width).foldl
      (fun st x => diffStep img1 img2 st x y0) ⟨0, img1.width, 0, img1.height, 0⟩ =
      ⟨1, x0, x0, y0, y0⟩
    rw [hXsplit, List.foldl_append, List.foldl_append]
    have hpreX : List.foldl (fun st x => diffStep img1 img2 st x y0)
        ⟨0, img1.width, 0, img1.height, 0⟩ (List.range x0) =
        ⟨0, img1.width, 0, img1.height, 0⟩ := by
      apply diffFold_row_const
      intro x hxv
      have hxlt : x < x0 := List.mem_range.mp hxv
      exact hrest x (lt_trans hxlt hx) y0 hy (fun hc => by omega)
    rw [hpreX]
    have hstep : List.foldl (fun st x => diffStep img1 img2 st x y0)
        ⟨0, img1.width, 0, img1.height, 0⟩ [x0] = ⟨1, x0, x0, y0, y0⟩ := by
      show diffStep img1 img2 ⟨0, img1.width, 0, img1.height, 0⟩ x0 y0 = _
      unfold diffStep
      rw [hmis]
      simp only [Bool.false_eq_true, if_false]
      have e1 : (if x0 < img1.width then x0 else img1.width) = x0 := if_pos hx
      have e2 : (if x0 > 0 then x0 else 0) = x0 := by split <;> omega
      have e3 : (if y0 < img1.height then y0 else img1.height) = y0 := if_pos hy
      have e4 : (if y0 > 0 then y0 else 0) = y0 := by split <;> omega
      rw [e1, e2, e3, e4]
    rw [hstep]
    apply diffFold_row_const
    intro x hxv
    obtain ⟨k, hk, hkx⟩ := List.mem_map.mp hxv
    have hklt : k < img1.width - (x0 + 1) := List.mem_range.mp hk
    exact hrest x (by omega) y0 hy (fun hc => by omega)
  simp only [List.foldl_cons, List.foldl_nil]
  rw [hrow]
  apply diffFold_rows_const
  intro y hyv x hxv
  obtain ⟨k, hk, hky⟩ := List.mem_map.mp hyv
  have hklt : k < img1.height - (y0 + 1) := List.mem_range.mp hk
  have hxlt : x < img1.width := List.mem_range.mp hxv
  exact hrest x hxlt y (by omega) (fun hc => by omega)

/-- **C9**: for every pair of same-dimension images that differ in exactly
one pixel (in any channel), the visual diff report has `diff_detected`
true and `diff_bounds` equal to a 1×1 rectangle positioned at that pixel's
coordinates. -/
theorem claim_C9 (img1 img2 : Image) (x0 y0 : Nat)
    (hw : img1.width = img2.width) (hh : img1.height = img2.height)
    (hx : x0 < img1.width) (hy : y0 < img1.height)
    (hmis : pixelsMatch (img1.pix x0 y0) (img2.pix x0 y0) 0 = false)
    (hrest : ∀ x, x < img1.width → ∀ y, y < img1.height →
      ¬(x = x0 ∧ y = y0) → pixelsMatch (img1.pix x y) (img2.pix x y) 0 = true) :
    (compareImages img1 img2).diff_detected = true ∧
      (compareImages img1 img2).diff_bounds = some ⟨x0, y0, 1, 1⟩ := by
  have hscan := pixelScan_single img1 img2 x0 y0 hx hy hmis hrest
  unfold compareImages
  rw [if_neg (by push_neg; exact ⟨hw, hh⟩)]
  rw [hscan]
  simp only [gt_iff_lt, Nat.zero_lt_one, if_true, Nat.sub_self]
  exact ⟨trivial, trivial⟩

/-- Witness for C9 at a concrete 2×2 image pair differing at (1, 0). -/
theorem claim_C9_witness :
    (compareImages c9Img1 c9Img2).diff_detected = true ∧
      (compareImages c9Img1 c9Img2).diff_bounds = some ⟨1, 0, 1, 1⟩ := by
  apply claim_C9 c9Img1 c9Img2 1 0
  · rfl
  · rfl
  · decide
  · decide
  · decide
  · decide

/-! ## Execution loop lemmas (C1, C2, C4) -/

theorem map_const_range' (msg : String) : ∀ (n a : Nat),
    (List.range' a n).map (fun _ => msg) = List.replicate n msg := by
  intro n
  induction n with
  | zero => intro a; rfl
  | succ m ih =>
    intro a
    rw [List.range'_succ, List.map_cons, ih (a + 1), List.replicate_succ]

theorem runLoop_all_fail {α : Type} (t : Ticket) (env : Nat → AttemptEnv α)
    (es : Nat → String)
    (hagent : ∀ i, ∃ out, (env i).agentResult = .ok out)
    (hver : ∀ i, verify t (env i).world = .error (es i)) :
    ∀ (fuel : Nat) (s : LoopState α),
      (runLoop t env fuel s).2 = false ∧
        (runLoop t env fuel s).1.errors = s.errors ++
          (List.range' s.attempts fuel).map
            (fun i => "Verification Failed:\n" ++ es i) ∧
        (runLoop t env fuel s).1.attempts = s.attempts + fuel := by
  intro fuel
  induction fuel with
  | zero => intro s; simp [runLoop]
  | succ n ih =>
    intro s
    obtain ⟨out, hout⟩ := hagent s.attempts
    have hstep : runLoop t env (n + 1) s =
        runLoop t env n
          ⟨s.attempts + 1,
           s.errors ++ ["Verification Failed:\n" ++ es s.attempts],
           (match extractConfidence out with
            | some c => c
            | none => s.conf),
           (env s.attempts).treeAfterAgent⟩ := by
      show (match (env s.attempts).agentResult with
        | .error e => runLoop t env n
            { s with errors := s.errors ++ ["Agent Execution Failed: " ++ e]
                     attempts := s.attempts + 1 }
        | .ok out =>
          let s1 := { s with tree := (env s.attempts).treeAfterAgent }
          let s2 :=
            match extractConfidence out with
            | some c => { s1 with conf := c }
            | none => s1
          match verify t (env s.attempts).world with
          | .ok _ => (s2, true)
          | .error e =>
            runLoop t env n
              { s2 with errors := s2.errors ++ ["Verification Failed:\n" ++ e]
                        attempts := s2.attempts + 1 }) = _
      rw [hout]
      show (match verify t (env s.attempts).world with
        | .ok _ => (_, true)
        | .error e => runLoop t env n _) = _
      rw [hver s.attempts]
      cases hec : extractConfidence out <;> rfl
    rw [hstep]
    obtain ⟨h1, h2, h3⟩ := ih
      ⟨s.attempts + 1,
       s.errors ++ ["Verification Failed:\n" ++ es s.attempts],
       (match extractConfidence out with
        | some c => c
        | none => s.conf),
       (env s.attempts).treeAfterAgent⟩
    refine ⟨h1, ?_, ?_⟩
    · rw [h2, List.range'_succ, List.map_cons]
      simp [List.append_assoc]
    · rw [h3]
      show s.attempts + 1 + n = s.attempts + (n + 1)
      omega

theorem lastExtractedUpto_mem {α : Type} (env : Nat → AttemptEnv α) :
    ∀ (n : Nat) (c : ℚ), lastExtractedUpto env n = some c →
      ∃ i, extractedAt env i = some c := by
  intro n
  induction n with
  | zero => intro c h; cases h
  | succ m ih =>
    intro c h
    unfold lastExtractedUpto at h
    cases hm : extractedAt env m with
    | some c0 =>
      rw [hm] at h
      cases h
      exact ⟨m, hm⟩
    | none =>
      rw [hm] at h
      exact ih c h

theorem runLoop_succ {α : Type} (t : Ticket) (env : Nat → AttemptEnv α)
    (n : Nat) (s : LoopState α) :
    runLoop t env (n + 1) s =
      match (env s.attempts).agentResult with
      | .error e => runLoop t env n
          { s with errors := s.errors ++ ["Agent Execution Failed: " ++ e]
                   attempts := s.attempts + 1 }
      | .ok out =>
        let s1 := { s with tree := (env s.attempts).treeAfterAgent }
        let s2 :=
          match extractConfidence out with
          | some c => { s1 with conf := c }
          | none => s1
        match verify t (env s.attempts).world with
        | .ok _ => (s2, true)
        | .error e =>
          runLoop t env n
            { s2 with errors := s2.errors ++ ["Verification Failed:\n" ++ e]
                      attempts := s2.attempts + 1 } := rfl

theorem runLoop_conf {α : Type} (t : Ticket) (env : Nat → AttemptEnv α) :
    ∀ (fuel : Nat) (s : LoopState α),
      s.conf = (lastExtractedUpto env s.attempts).getD 1 →
      ((runLoop t env fuel s).2 = true →
        (runLoop t env fuel s).1.conf =
          (lastExtractedUpto env ((runLoop t env fuel s).1.attempts + 1)).getD 1) ∧
      ((runLoop t env fuel s).2 = false →
        (runLoop t env fuel s).1.conf =
          (lastExtractedUpto env (runLoop t env fuel s).1.attempts).getD 1) := by
  intro fuel
  induction fuel with
  | zero =>
    intro s hs
    exact ⟨fun h => absurd h (by simp [runLoop]), fun _ => hs⟩
  | succ n ih =>
    intro s hs
    cases hout : (env s.attempts).agentResult with
    | error e =>
      have hext : extractedAt env s.attempts = none := by
        unfold extractedAt
        rw [hout]
      have hlast : lastExtractedUpto env (s.attempts + 1) =
          lastExtractedUpto env s.attempts := by
        show (match extractedAt env s.attempts with
          | some c => some c
          | none => lastExtractedUpto env s.attempts) = _
        rw [hext]
      have hred : runLoop t env (n + 1) s =
          runLoop t env n
            { s with errors := s.errors ++ ["Agent Execution Failed: " ++ e],
                     attempts := s.attempts + 1 } := by
        rw [runLoop_succ, hout]
      rw [hred]
      exact ih { s with errors := s.errors ++ ["Agent Execution Failed: " ++ e],
                        attempts := s.attempts + 1 }
        (by show s.conf = _; rw [hlast]; exact hs)
    | ok out =>
      have hext : extractedAt env s.attempts = extractConfidence out := by
        unfold extractedAt
        rw [hout]
      cases hec : extractConfidence out with
      | some c =>
        have hlast : lastExtractedUpto env (s.attempts + 1) = some c := by
          show (match extractedAt env s.attempts with
            | some c0 => some c0
            | none => lastExtractedUpto env s.attempts) = _
          rw [hext, hec]
        cases hver : verify t (env s.attempts).world with
        | ok u =>
          have hred : runLoop t env (n + 1) s =
              ({ s with tree := (env s.attempts).treeAfterAgent, conf := c }, true) := by
            rw [runLoop_succ, hout]
            show (let s1 := { s with tree := (env s.attempts).treeAfterAgent }
              let s2 :=
                match extractConfidence out with
                | some c => { s1 with conf := c }
                | none => s1
              match verify t (env s.attempts).world with
              | .ok _ => (s2, true)
              | .error e =>
                runLoop t env n
                  { s2 with errors := s2.errors ++ ["Verification Failed:\n" ++ e]
                            attempts := s2.attempts + 1 }) = _
            rw [hec, hver]
          rw [hred]
          refine ⟨fun _ => ?_, fun hfalse => by cases hfalse⟩
          show c = (lastExtractedUpto env (s.attempts + 1)).getD 1
          rw [hlast]
          rfl
        | error e =>
          have hred : runLoop t env (n + 1) s =
              runLoop t env n
                { s with tree := (env s.attempts).treeAfterAgent, conf := c,
                         errors := s.errors ++ ["Verification Failed:\n" ++ e],
                         attempts := s.attempts + 1 } := by
            rw [runLoop_succ, hout]
            show (let s1 := { s with tree := (env s.attempts).treeAfterAgent }
              let s2 :=
                match extractConfidence out with
                | some c => { s1 with conf := c }
                | none => s1
              match verify t (env s.attempts).world with
              | .ok _ => (s2, true)
              | .error e =>
                runLoop t env n
                  { s2 with errors := s2.errors ++ ["Verification Failed:\n" ++ e]
                            attempts := s2.attempts + 1 }) = _
            rw [hec, hver]
          rw [hred]
          exact ih { s with tree := (env s.attempts).treeAfterAgent, conf := c,
                            errors := s.errors ++ ["Verification Failed:\n" ++ e],
                            attempts := s.attempts + 1 }
            (by show c = _; rw [hlast]; rfl)
      | none =>
        have hlast : lastExtractedUpto env (s.attempts + 1) =
            lastExtractedUpto env s.attempts := by
          show (match extractedAt env s.attempts with
            | some c0 => some c0
            | none => lastExtractedUpto env s.attempts) = _
          rw [hext, hec]
        cases hver : verify t (env s.attempts).world with
        | ok u =>
          have hred : runLoop t env (n + 1) s =
              ({ s with tree := (env s.attempts).treeAfterAgent }, true) := by
            rw [runLoop_succ, hout]
            show (let s1 := { s with tree := (env s.attempts).treeAfterAgent }
              let s2 :=
                match extractConfidence out with
                | some c => { s1 with conf := c }
                | none => s1
              match verify t (env s.attempts).world with
              | .ok _ => (s2, true)
              | .error e =>
                runLoop t env n
                  { s2 with errors := s2.errors ++ ["Verification Failed:\n" ++ e]
                            attempts := s2.attempts + 1 }) = _
            rw [hec, hver]
          rw [hred]
          refine ⟨fun _ => ?_, fun hfalse => by cases hfalse⟩
          show s.conf = (lastExtractedUpto env (s.attempts + 1)).getD 1
          rw [hlast]
          exact hs
        | error e =>
          have hred : runLoop t env (n + 1) s =
              runLoop t env n
                { s with tree := (env s.attempts).treeAfterAgent,
                         errors := s.errors ++ ["Verification Failed:\n" ++ e],
                         attempts := s.attempts + 1 } := by
            rw [runLoop_succ, hout]
            show (let s1 := { s with tree := (env s.attempts).treeAfterAgent }
              let s2 :=
                match extractConfidence out with
                | some c => { s1 with conf := c }
                | none => s1
              match verify t (env s.attempts).world with
              | .ok _ => (s2, true)
              | .error e =>
                runLoop t env n
                  { s2 with errors := s2.errors ++ ["Verification Failed:\n" ++ e]
                            attempts := s2.attempts + 1 }) = _
            rw [hec, hver]
          rw [hred]
          exact ih { s with tree := (env s.attempts).treeAfterAgent,
                            errors := s.errors ++ ["Verification Failed:\n" ++ e],
                            attempts := s.attempts + 1 }
            (by show s.conf = _; rw [hlast]; exact hs)

/-- **C1** counterexample: a run whose single attempt extracts confidence
0.7 but fails verification reports confidence 0.0 — not the most recent
extracted value and not 1.0 — refuting the claimed equality. -/
theorem claim_C1_counterexample :
    (runWithHandshake c1xTicket c1xEnv c1xWorld).toOption.map
        (fun p => (p.1.success, p.1.confidence)) = some (false, 0) ∧
      extractedAt c1xEnv 0 = some (mkRat 7 10) ∧
      (0 : ℚ) ≠ mkRat 7 10 ∧ (0 : ℚ) ≠ 1 := by
  refine ⟨by decide, by decide, by decide, by decide⟩

/-- **C1** (amended): when `run_with_handshake` returns a result (clean
workspace), a *successful* run reports the most recent successfully
extracted confidence (1.0 if none was ever extracted), a *failed* run
reports 0.0, and the reported confidence lies in [0,1] whenever every
extracted confidence value does. -/
theorem claim_C1 {α : Type} (t : Ticket) (env : Nat → AttemptEnv α)
    (w : World α) (r : ExecutionResult) (tr : α)
    (h : runWithHandshake t env w = .ok (r, tr)) :
    (r.success = false → r.confidence = 0) ∧
      (r.success = true →
        r.confidence = (lastExtractedUpto env
          ((runLoop t env t.max_retries (initLoopState w)).1.attempts + 1)).getD 1) ∧
      ((∀ i c, extractedAt env i = some c → 0 ≤ c ∧ c ≤ 1) →
        0 ≤ r.confidence ∧ r.confidence ≤ 1) := by
  have hinv : (initLoopState w).conf =
      (lastExtractedUpto env (initLoopState w).attempts).getD 1 := rfl
  have hcc := runLoop_conf t env t.max_retries (initLoopState w) hinv
  unfold runWithHandshake at h
  cases hd : w.gitDirty with
  | true => rw [hd] at h; simp at h
  | false =>
    rw [hd] at h
    simp only [Bool.false_eq_true, if_false] at h
    cases hb : (runLoop t env t.max_retries (initLoopState w)).2 with
    | true =>
      rw [hb] at h
      simp only [if_true, Except.ok.injEq, Prod.mk.injEq] at h
      obtain ⟨hr, htr⟩ := h
      subst hr
      refine ⟨?_, ?_, ?_⟩
      · intro h1
        exact Bool.noConfusion h1
      · intro _
        exact hcc.1 hb
      · intro hbound
        have hcf := hcc.1 hb
        show (0 : ℚ) ≤ (runLoop t env t.max_retries (initLoopState w)).1.conf ∧
          (runLoop t env t.max_retries (initLoopState w)).1.conf ≤ 1
        rw [hcf]
        cases hl : lastExtractedUpto env
            ((runLoop t env t.max_retries (initLoopState w)).1.attempts + 1) with
        | none => simp
        | some c =>
          obtain ⟨i, hi⟩ := lastExtractedUpto_mem env _ c hl
          simpa using hbound i c hi
    | false =>
      rw [hb] at h
      simp only [Bool.false_eq_true, if_false, Except.ok.injEq, Prod.mk.injEq] at h
      obtain ⟨hr, htr⟩ := h
      subst hr
      refine ⟨?_, ?_, ?_⟩
      · intro _
        rfl
      · intro h1
        exact Bool.noConfusion h1
      · intro _
        constructor
        · show (0 : ℚ) ≤ 0
          exact le_refl 0
        · show (0 : ℚ) ≤ 1
          norm_num

/-- Witness for C1: a successful concrete run with extracted confidence
0.5, whose reported confidence is therefore within [0,1]. -/
theorem claim_C1_witness :
    (0 : ℚ) ≤ mkRat 5 10 ∧ mkRat 5 10 ≤ 1 := by
  have h := claim_C1 c1wTicket c1wEnv c1wWorld
    ⟨true, mkRat 5 10, []⟩ 7 (by decide)
  refine h.2.2 ?_
  intro i c hic
  have hr : extractedAt c1wEnv i =
      extractConfidence "\x7b\"confidence\": 0.5\x7d" := rfl
  rw [hr] at hic
  have hev : extractConfidence "\x7b\"confidence\": 0.5\x7d" =
      some (mkRat 5 10) := by decide
  rw [hev] at hic
  cases hic
  exact ⟨by decide, by decide⟩

/-- **C2** counterexample: with a configured but missing golden image and
retry budget 2, the run returns a normal (non-fatal) failure result after
consuming both retry attempts — two golden-image verification errors —
refuting "terminates fatally without consuming any retry attempt". -/
theorem claim_C2_counterexample :
    (runWithHandshake c2xTicket c2xEnv c2xWorld).toOption.map
        (fun p => (p.1.success, p.1.errors)) =
      some (false,
        ["Verification Failed:\nGolden image not found at g.png",
         "Verification Failed:\nGolden image not found at g.png"]) := by
  decide

/-- **C2** (amended): when a golden-image path is configured but the file
does not exist on disk (screenshot capture succeeding), every attempt's
verification fails with a golden-image-not-found hard error (never a
pass); each such failure consumes one retry attempt, and with retry budget
N the run ends unsuccessfully after exactly N attempts with the working
tree reset to its pre-run state. -/
theorem claim_C2 {α : Type} (t : Ticket) (env : Nat → AttemptEnv α)
    (w : World α) (g : String)
    (hdirty : w.gitDirty = false) (hg : t.golden_image = some g)
    (hcmd : t.command = "")
    (hagent : ∀ i, ∃ out, (env i).agentResult = .ok out)
    (hw : ∀ i, (env i).world.screenshotOk = true ∧
      (env i).world.actualExists = true ∧ (env i).world.goldenExists = false) :
    runWithHandshake t env w = .ok
      ({ success := false, confidence := 0,
         errors := List.replicate t.max_retries
           ("Verification Failed:\n" ++ ("Golden image not found at " ++ g)) },
        w.tree) ∧
    (runLoop t env t.max_retries (initLoopState w)).1.attempts = t.max_retries := by
  have hver : ∀ i, verify t (env i).world =
      .error ("Golden image not found at " ++ g) := by
    intro i
    obtain ⟨h1, h2, h3⟩ := hw i
    unfold verify
    rw [if_neg (by simp [hcmd])]
    rw [hg]
    unfold verifyVisual
    rw [h1, h2, h3]
    simp
  obtain ⟨hb, herr, hatt⟩ := runLoop_all_fail t env
    (fun _ => "Golden image not found at " ++ g) hagent hver
    t.max_retries (initLoopState w)
  have h0 : (initLoopState w).attempts = 0 := rfl
  rw [h0] at herr
  constructor
  · unfold runWithHandshake
    rw [hdirty]
    simp only [Bool.false_eq_true, if_false]
    rw [hb]
    simp only [Bool.false_eq_true, if_false]
    rw [herr]
    rw [map_const_range' _ t.max_retries 0]
    rfl
  · rw [hatt]
    show 0 + t.max_retries = t.max_retries
    omega

/-- Witness for C2 at a concrete missing-golden run with budget 1. -/
theorem claim_C2_witness :
    runWithHandshake c2wTicket c2wEnv c2wWorld = .ok
      ({ success := false, confidence := 0,
         errors := List.replicate 1
           ("Verification Failed:\n" ++
             ("Golden image not found at " ++ "golden/home.png")) }, 5) ∧
    (runLoop c2wTicket c2wEnv 1 (initLoopState c2wWorld)).1.attempts = 1 := by
  exact claim_C2 c2wTicket c2wEnv c2wWorld "golden/home.png" rfl rfl rfl
    (fun _ => ⟨"ok", rfl⟩) (fun _ => ⟨rfl, rfl, rfl⟩)

/-- **C4**: for every execution run whose verification command always exits
non-zero (and whose agent invocations succeed), with retry budget N the run
fails after exactly N attempts, the result carries exactly the N
verification-error strings in attempt order, and the working tree is the
pre-run tree (hard reset). -/
theorem claim_C4 {α : Type} (t : Ticket) (env : Nat → AttemptEnv α)
    (w : World α)
    (hdirty : w.gitDirty = false) (hcmd : t.command ≠ "")
    (hagent : ∀ i, ∃ out, (env i).agentResult = .ok out)
    (hfail : ∀ i, (env i).world.cmdSuccess = false) :
    runWithHandshake t env w = .ok
      ({ success := false, confidence := 0,
         errors := (List.range t.max_retries).map (fun i =>
           "Verification Failed:\n" ++
             ("Command Failed:\nSTDOUT:\n" ++ (env i).world.cmdStdout ++
               "\nSTDERR:\n" ++ (env i).world.cmdStderr)) }, w.tree) ∧
    (runLoop t env t.max_retries (initLoopState w)).1.attempts = t.max_retries := by
  have hver : ∀ i, verify t (env i).world =
      .error ("Command Failed:\nSTDOUT:\n" ++ (env i).world.cmdStdout ++
        "\nSTDERR:\n" ++ (env i).world.cmdStderr) := by
    intro i
    unfold verify
    rw [if_pos ⟨hcmd, hfail i⟩]
  obtain ⟨hb, herr, hatt⟩ := runLoop_all_fail t env
    (fun i => "Command Failed:\nSTDOUT:\n" ++ (env i).world.cmdStdout ++
      "\nSTDERR:\n" ++ (env i).world.cmdStderr) hagent hver
    t.max_retries (initLoopState w)
  have h0 : (initLoopState w).attempts = 0 := rfl
  rw [h0] at herr
  constructor
  · unfold runWithHandshake
    rw [hdirty]
    simp only [Bool.false_eq_true, if_false]
    rw [hb]
    simp only [Bool.false_eq_true, if_false]
    rw [herr, List.range_eq_range']
    rfl
  · rw [hatt]
    show 0 + t.max_retries = t.max_retries
    omega

/-- Witness for C4 at a concrete always-failing-command run with budget 2. -/
theorem claim_C4_witness :
    runWithHandshake c4Ticket c4Env c4World = .ok
      ({ success := false, confidence := 0,
         errors :=
           ["Verification Failed:\nCommand Failed:\nSTDOUT:\nso\nSTDERR:\nse",
            "Verification Failed:\nCommand Failed:\nSTDOUT:\nso\nSTDERR:\nse"] },
        9) ∧
    (runLoop c4Ticket c4Env 2 (initLoopState c4World)).1.attempts = 2 := by
  have h := claim_C4 c4Ticket c4Env c4World rfl (by decide)
    (fun _ => ⟨"agent out", rfl⟩) (fun _ => rfl)
  refine ⟨h.1.trans (by decide), h.2⟩

/-! ## BFS lemmas (C3, C5) -/

theorem lookup_cons_self (p : String) (d : Nat) (v : Visited) :
    List.lookup p ((p, d) :: v) = some d := by
  simp [List.lookup]

theorem lookup_cons_ne {p q : String} (d : Nat) (v : Visited) (h : p ≠ q) :
    List.lookup p ((q, d) :: v) = List.lookup p v := by
  have hb : (p == q) = false := beq_eq_false_iff_ne.mpr h
  simp [List.lookup, hb]

theorem improves_refl (v : Visited) : Improves v v :=
  fun _ d h => ⟨d, le_refl d, h⟩

theorem improves_trans {v1 v2 v3 : Visited}
    (h12 : Improves v1 v2) (h23 : Improves v2 v3) : Improves v1 v3 := by
  intro p d h
  obtain ⟨d2, hle2, h2⟩ := h12 p d h
  obtain ⟨d3, hle3, h3⟩ := h23 p d2 h2
  exact ⟨d3, le_trans hle3 hle2, h3⟩

theorem improves_insert {v : Visited} {n : String} {nd : Nat}
    (h : ∀ old, List.lookup n v = some old → nd ≤ old) :
    Improves v ((n, nd) :: v) := by
  intro p d hp
  by_cases hpn : p = n
  · subst hpn
    exact ⟨nd, h d hp, lookup_cons_self p nd v⟩
  · exact ⟨d, le_refl d, by rw [lookup_cons_ne nd v hpn]; exact hp⟩

theorem successors_mem_edges {g : Graph} {p n : String}
    (h : n ∈ successors g p) : (p, n) ∈ g.edges := by
  unfold successors at h
  obtain ⟨e, he, hen⟩ := List.mem_map.mp h
  obtain ⟨hmem, hfst⟩ := List.mem_filter.mp he
  have : e.1 = p := by simpa using hfst
  have he2 : e = (p, n) := by
    cases e
    simp_all
  rw [← he2]
  exact hmem

theorem depthWeight_le (o : Option Nat) : depthWeight o ≤ 3 := by
  cases o with
  | none => exact le_refl 3
  | some d => exact min_le_right d 3

theorem potential_le (v : Visited) : ∀ nodes : List String,
    potential nodes v ≤ 3 * nodes.length := by
  intro nodes
  induction nodes with
  | nil => simp [potential]
  | cons a rest ih =>
    show depthWeight (List.lookup a v) + potential rest v ≤ 3 * (rest.length + 1)
    have := depthWeight_le (List.lookup a v)
    omega

theorem potential_insert {nodes : List String} (hnodup : nodes.Nodup)
    {n : String} (hn : n ∈ nodes) (nd : Nat) (v : Visited) :
    potential nodes ((n, nd) :: v) + depthWeight (List.lookup n v) =
      potential nodes v + depthWeight (some nd) := by
  induction nodes with
  | nil => cases hn
  | cons a rest ih =>
    by_cases han : a = n
    · subst han
      have hnot : a ∉ rest := (List.nodup_cons.mp hnodup).1
      have hsame : potential rest ((a, nd) :: v) = potential rest v := by
        unfold potential
        congr 1
        apply List.map_congr_left
        intro x hx
        have hxa : x ≠ a := fun hc => hnot (hc ▸ hx)
        rw [lookup_cons_ne nd v hxa]
      show depthWeight (List.lookup a ((a, nd) :: v)) + potential rest ((a, nd) :: v) +
          depthWeight (List.lookup a v) =
        depthWeight (List.lookup a v) + potential rest v + depthWeight (some nd)
      rw [lookup_cons_self, hsame]
      omega
    · have hn' : n ∈ rest := by
        cases hn with
        | head => exact absurd rfl han
        | tail _ h2 => exact h2
      have ih' := ih (List.nodup_cons.mp hnodup).2 hn'
      show depthWeight (List.lookup a ((n, nd) :: v)) + potential rest ((n, nd) :: v) +
          depthWeight (List.lookup n v) =
        depthWeight (List.lookup a v) + potential rest v + depthWeight (some nd)
      rw [lookup_cons_ne nd v han]
      omega

theorem relaxNeighbors_cons (depth : Nat) (n : String) (rest : List String)
    (v : Visited) (q : List (String × Nat)) :
    relaxNeighbors depth (n :: rest) v q =
      match List.lookup n v with
      | none =>
        relaxNeighbors depth rest ((n, depth + 1) :: v)
          (if depth + 1 < 3 then q ++ [(n, depth + 1)] else q)
      | some old =>
        if depth + 1 < old then
          relaxNeighbors depth rest ((n, depth + 1) :: v)
            (if depth + 1 < 3 then q ++ [(n, depth + 1)] else q)
        else
          relaxNeighbors depth rest v q := rfl

theorem relaxNeighbors_cons_none {depth : Nat} {n : String} {rest : List String}
    {v : Visited} {q : List (String × Nat)} (h : List.lookup n v = none) :
    relaxNeighbors depth (n :: rest) v q =
      relaxNeighbors depth rest ((n, depth + 1) :: v)
        (if depth + 1 < 3 then q ++ [(n, depth + 1)] else q) := by
  rw [relaxNeighbors_cons, h]

theorem relaxNeighbors_cons_improve {depth : Nat} {n : String} {rest : List String}
    {v : Visited} {q : List (String × Nat)} {old : Nat}
    (h : List.lookup n v = some old) (hlt : depth + 1 < old) :
    relaxNeighbors depth (n :: rest) v q =
      relaxNeighbors depth rest ((n, depth + 1) :: v)
        (if depth + 1 < 3 then q ++ [(n, depth + 1)] else q) := by
  rw [relaxNeighbors_cons, h]
  show (if depth + 1 < old then
      relaxNeighbors depth rest ((n, depth + 1) :: v)
        (if depth + 1 < 3 then q ++ [(n, depth + 1)] else q)
    else relaxNeighbors depth rest v q) = _
  rw [if_pos hlt]

theorem relaxNeighbors_cons_skip {depth : Nat} {n : String} {rest : List String}
    {v : Visited} {q : List (String × Nat)} {old : Nat}
    (h : List.lookup n v = some old) (hlt : ¬depth + 1 < old) :
    relaxNeighbors depth (n :: rest) v q = relaxNeighbors depth rest v q := by
  rw [relaxNeighbors_cons, h]
  show (if depth + 1 < old then
      relaxNeighbors depth rest ((n, depth + 1) :: v)
        (if depth + 1 < 3 then q ++ [(n, depth + 1)] else q)
    else relaxNeighbors depth rest v q) = _
  rw [if_neg hlt]

theorem relax_improves (depth : Nat) : ∀ (ns : List String) (v : Visited)
    (q : List (String × Nat)),
    Improves v (relaxNeighbors depth ns v q).1 := by
  intro ns
  induction ns with
  | nil => intro v q; exact improves_refl v
  | cons n rest ih =>
    intro v q
    cases hl : List.lookup n v with
    | none =>
      rw [relaxNeighbors_cons_none hl]
      exact improves_trans
        (improves_insert (fun old h => by rw [hl] at h; cases h)) (ih _ _)
    | some old =>
      by_cases hlt : depth + 1 < old
      · rw [relaxNeighbors_cons_improve hl hlt]
        refine improves_trans (improves_insert (fun o h => ?_)) (ih _ _)
        rw [hl] at h
        cases h
        omega
      · rw [relaxNeighbors_cons_skip hl hlt]
        exact ih v q

theorem relax_queue_extend (depth : Nat) : ∀ (ns : List String) (v : Visited)
    (q : List (String × Nat)),
    ∃ extra, (relaxNeighbors depth ns v q).2 = q ++ extra := by
  intro ns
  induction ns with
  | nil => intro v q; exact ⟨[], by simp [relaxNeighbors]⟩
  | cons n rest ih =>
    intro v q
    have hext : ∀ v2 : Visited, ∃ extra,
        (relaxNeighbors depth rest v2
          (if depth + 1 < 3 then q ++ [(n, depth + 1)] else q)).2 = q ++ extra := by
      intro v2
      by_cases h3 : depth + 1 < 3
      · rw [if_pos h3]
        obtain ⟨e2, he2⟩ := ih v2 (q ++ [(n, depth + 1)])
        exact ⟨[(n, depth + 1)] ++ e2, by rw [he2, List.append_assoc]⟩
      · rw [if_neg h3]
        exact ih v2 q
    cases hl : List.lookup n v with
    | none =>
      rw [relaxNeighbors_cons_none hl]
      exact hext _
    | some old =>
      by_cases hlt : depth + 1 < old
      · rw [relaxNeighbors_cons_improve hl hlt]
        exact hext _
      · rw [relaxNeighbors_cons_skip hl hlt]
        exact ih v q

theorem relax_invB (depth : Nat) : ∀ (ns : List String) (v : Visited)
    (q : List (String × Nat)),
    (∀ pd ∈ q, ∃ dc, dc ≤ pd.2 ∧ List.lookup pd.1 v = some dc) →
    ∀ pd ∈ (relaxNeighbors depth ns v q).2, ∃ dc, dc ≤ pd.2 ∧
      List.lookup pd.1 (relaxNeighbors depth ns v q).1 = some dc := by
  intro ns
  induction ns with
  | nil => intro v q h; exact h
  | cons n rest ih =>
    intro v q h
    have hins : ∀ (hcond : ∀ old, List.lookup n v = some old → depth + 1 ≤ old),
        ∀ pd ∈ (relaxNeighbors depth rest ((n, depth + 1) :: v)
          (if depth + 1 < 3 then q ++ [(n, depth + 1)] else q)).2,
        ∃ dc, dc ≤ pd.2 ∧ List.lookup pd.1 (relaxNeighbors depth rest
          ((n, depth + 1) :: v)
          (if depth + 1 < 3 then q ++ [(n, depth + 1)] else q)).1 = some dc := by
      intro hcond
      apply ih
      intro pd hpd
      have hpd' : pd ∈ q ++ [(n, depth + 1)] ∨ pd ∈ q := by
        by_cases h3 : depth + 1 < 3
        · rw [if_pos h3] at hpd; exact Or.inl hpd
        · rw [if_neg h3] at hpd; exact Or.inr hpd
      have hmem : pd ∈ q ∨ pd = (n, depth + 1) := by
        rcases hpd' with h1 | h1
        · rcases List.mem_append.mp h1 with h2 | h2
          · exact Or.inl h2
          · exact Or.inr (by simpa using h2)
        · exact Or.inl h1
      rcases hmem with h1 | h1
      · obtain ⟨dc, hdc, hlk⟩ := h pd h1
        by_cases hpn : pd.1 = n
        · have hle : depth + 1 ≤ dc := hcond dc (hpn ▸ hlk)
          refine ⟨depth + 1, le_trans hle hdc, ?_⟩
          rw [hpn, lookup_cons_self]
        · exact ⟨dc, hdc, by rw [lookup_cons_ne _ _ hpn]; exact hlk⟩
      · subst h1
        exact ⟨depth + 1, le_refl _, lookup_cons_self _ _ _⟩
    cases hl : List.lookup n v with
    | none =>
      rw [relaxNeighbors_cons_none hl]
      exact hins (fun old hold => by rw [hl] at hold; cases hold)
    | some old =>
      by_cases hlt : depth + 1 < old
      · rw [relaxNeighbors_cons_improve hl hlt]
        exact hins (fun o ho => by rw [hl] at ho; cases ho; omega)
      · rw [relaxNeighbors_cons_skip hl hlt]
        exact ih v q h

theorem relax_invQ (g : Graph) (seeds : List String) (depth : Nat) :
    ∀ (ns : List String) (v : Visited) (q : List (String × Nat)),
    (∀ pd ∈ q, Reach g seeds pd.2 pd.1) →
    (∀ n ∈ ns, Reach g seeds (depth + 1) n) →
    ∀ pd ∈ (relaxNeighbors depth ns v q).2, Reach g seeds pd.2 pd.1 := by
  intro ns
  induction ns with
  | nil => intro v q hq _; exact hq
  | cons n rest ih =>
    intro v q hq hns
    have hq' : ∀ pd ∈ (if depth + 1 < 3 then q ++ [(n, depth + 1)] else q),
        Reach g seeds pd.2 pd.1 := by
      intro pd hpd
      by_cases h3 : depth + 1 < 3
      · rw [if_pos h3] at hpd
        rcases List.mem_append.mp hpd with h1 | h1
        · exact hq pd h1
        · have : pd = (n, depth + 1) := by simpa using h1
          rw [this]
          exact hns n (by simp)
      · rw [if_neg h3] at hpd
        exact hq pd hpd
    have hns' : ∀ m ∈ rest, Reach g seeds (depth + 1) m :=
      fun m hm => hns m (by simp [hm])
    cases hl : List.lookup n v with
    | none =>
      rw [relaxNeighbors_cons_none hl]
      exact ih _ _ hq' hns'
    | some old =>
      by_cases hlt : depth + 1 < old
      · rw [relaxNeighbors_cons_improve hl hlt]
        exact ih _ _ hq' hns'
      · rw [relaxNeighbors_cons_skip hl hlt]
        exact ih v q hq hns'

theorem relax_sound (g : Graph) (seeds : List String) (depth : Nat)
    (hd : depth < 2) :
    ∀ (ns : List String) (v : Visited) (q : List (String × Nat)),
    (∀ p dd, List.lookup p v = some dd → Reach g seeds dd p ∧ dd ≤ 2) →
    (∀ n ∈ ns, Reach g seeds (depth + 1) n) →
    ∀ p dd, List.lookup p (relaxNeighbors depth ns v q).1 = some dd →
      Reach g seeds dd p ∧ dd ≤ 2 := by
  intro ns
  induction ns with
  | nil => intro v q hs _; exact hs
  | cons n rest ih =>
    intro v q hs hns
    have hs' : ∀ p dd, List.lookup p ((n, depth + 1) :: v) = some dd →
        Reach g seeds dd p ∧ dd ≤ 2 := by
      intro p dd hp
      by_cases hpn : p = n
      · subst hpn
        rw [lookup_cons_self] at hp
        cases hp
        exact ⟨hns p (by simp), by omega⟩
      · rw [lookup_cons_ne _ _ hpn] at hp
        exact hs p dd hp
    have hns' : ∀ m ∈ rest, Reach g seeds (depth + 1) m :=
      fun m hm => hns m (by simp [hm])
    cases hl : List.lookup n v with
    | none =>
      rw [relaxNeighbors_cons_none hl]
      exact ih _ _ hs' hns'
    | some old =>
      by_cases hlt : depth + 1 < old
      · rw [relaxNeighbors_cons_improve hl hlt]
        exact ih _ _ hs' hns'
      · rw [relaxNeighbors_cons_skip hl hlt]
        exact ih v q hs hns'

theorem relax_bound (depth : Nat) :
    ∀ (ns : List String) (v : Visited) (q : List (String × Nat)),
    ∀ n ∈ ns, ∃ dn, dn ≤ depth + 1 ∧
      List.lookup n (relaxNeighbors depth ns v q).1 = some dn := by
  intro ns
  induction ns with
  | nil => intro v q n hn; cases hn
  | cons m rest ih =>
    intro v q n hn
    rcases List.mem_cons.mp hn with hnm | hnrest
    · subst hnm
      cases hl : List.lookup n v with
      | none =>
        rw [relaxNeighbors_cons_none hl]
        obtain ⟨dn, hle, hlk⟩ := (relax_improves depth rest ((n, depth + 1) :: v) _)
          n (depth + 1) (lookup_cons_self _ _ _)
        exact ⟨dn, hle, hlk⟩
      | some old =>
        by_cases hlt : depth + 1 < old
        · rw [relaxNeighbors_cons_improve hl hlt]
          obtain ⟨dn, hle, hlk⟩ := (relax_improves depth rest ((n, depth + 1) :: v) _)
            n (depth + 1) (lookup_cons_self _ _ _)
          exact ⟨dn, hle, hlk⟩
        · rw [relaxNeighbors_cons_skip hl hlt]
          obtain ⟨dn, hle, hlk⟩ := (relax_improves depth rest v q) n old hl
          exact ⟨dn, by omega, hlk⟩
    · cases hl : List.lookup m v with
      | none =>
        rw [relaxNeighbors_cons_none hl]
        exact ih _ _ n hnrest
      | some old =>
        by_cases hlt : depth + 1 < old
        · rw [relaxNeighbors_cons_improve hl hlt]
          exact ih _ _ n hnrest
        · rw [relaxNeighbors_cons_skip hl hlt]
          exact ih v q n hnrest

theorem relax_change (depth : Nat) (hd : depth < 2) :
    ∀ (ns : List String) (v : Visited) (q : List (String × Nat)),
    ∀ x dx, List.lookup x (relaxNeighbors depth ns v q).1 = some dx →
      List.lookup x v = some dx ∨
        (dx = depth + 1 ∧ (x, dx) ∈ (relaxNeighbors depth ns v q).2) := by
  intro ns
  induction ns with
  | nil => intro v q x dx h; exact Or.inl h
  | cons n rest ih =>
    intro v q x dx h
    have hgen : ∀ (hq3 : depth + 1 < 3),
        List.lookup x (relaxNeighbors depth rest ((n, depth + 1) :: v)
          (if depth + 1 < 3 then q ++ [(n, depth + 1)] else q)).1 = some dx →
        List.lookup x v = some dx ∨
          (dx = depth + 1 ∧ (x, dx) ∈ (relaxNeighbors depth rest ((n, depth + 1) :: v)
            (if depth + 1 < 3 then q ++ [(n, depth + 1)] else q)).2) := by
      intro hq3 h2
      rcases ih _ _ x dx h2 with h3 | h3
      · by_cases hxn : x = n
        · subst hxn
          rw [lookup_cons_self] at h3
          cases h3
          refine Or.inr ⟨rfl, ?_⟩
          obtain ⟨extra, hex⟩ := relax_queue_extend depth rest ((x, depth + 1) :: v)
            (if depth + 1 < 3 then q ++ [(x, depth + 1)] else q)
          rw [hex, if_pos hq3]
          simp
        · rw [lookup_cons_ne _ _ hxn] at h3
          exact Or.inl h3
      · exact Or.inr h3
    cases hl : List.lookup n v with
    | none =>
      rw [relaxNeighbors_cons_none hl] at h ⊢
      exact hgen (by omega) h
    | some old =>
      by_cases hlt : depth + 1 < old
      · rw [relaxNeighbors_cons_improve hl hlt] at h ⊢
        exact hgen (by omega) h
      · rw [relaxNeighbors_cons_skip hl hlt] at h ⊢
        exact ih v q x dx h

theorem relax_potential (g : Graph) (hnodup : g.nodes.Nodup) (depth : Nat)
    (hd : depth < 2) :
    ∀ (ns : List String) (v : Visited) (q : List (String × Nat)),
    (∀ n ∈ ns, n ∈ g.nodes) →
    potential g.nodes (relaxNeighbors depth ns v q).1 +
      (relaxNeighbors depth ns v q).2.length ≤
      potential g.nodes v + q.length := by
  intro ns
  induction ns with
  | nil => intro v q _; exact le_refl _
  | cons n rest ih =>
    intro v q hns
    have hnode : n ∈ g.nodes := hns n (by simp)
    have hns' : ∀ m ∈ rest, m ∈ g.nodes := fun m hm => hns m (by simp [hm])
    have hq3 : depth + 1 < 3 := by omega
    cases hl : List.lookup n v with
    | none =>
      rw [relaxNeighbors_cons_none hl, if_pos hq3]
      have hpi := potential_insert hnodup hnode (depth + 1) v
      rw [hl] at hpi
      have hw1 : depthWeight (none : Option Nat) = 3 := rfl
      have hw2 : depthWeight (some (depth + 1)) = depth + 1 := by
        show min (depth + 1) 3 = depth + 1
        exact Nat.min_eq_left (by omega)
      have hlen : (q ++ [(n, depth + 1)]).length = q.length + 1 := by simp
      have := ih ((n, depth + 1) :: v) (q ++ [(n, depth + 1)]) hns'
      rw [hlen] at this
      omega
    | some old =>
      by_cases hlt : depth + 1 < old
      · rw [relaxNeighbors_cons_improve hl hlt, if_pos hq3]
        have hpi := potential_insert hnodup hnode (depth + 1) v
        rw [hl] at hpi
        have hw1 : depthWeight (some old) = min old 3 := rfl
        have hw2 : depthWeight (some (depth + 1)) = depth + 1 := by
          show min (depth + 1) 3 = depth + 1
          exact Nat.min_eq_left (by omega)
        have hmin : depth + 1 + 1 ≤ min old 3 :=
          Nat.le_min.mpr ⟨by omega, by omega⟩
        have hlen : (q ++ [(n, depth + 1)]).length = q.length + 1 := by simp
        have := ih ((n, depth + 1) :: v) (q ++ [(n, depth + 1)]) hns'
        rw [hlen] at this
        omega
      · rw [relaxNeighbors_cons_skip hl hlt]
        exact ih v q hns'

theorem bfsLoop_run (g : Graph) (seeds : List String) (hnodup : g.nodes.Nodup)
    (hclosed : ∀ e ∈ g.edges, e.2 ∈ g.nodes) :
    ∀ (fuel : Nat) (v : Visited) (q : List (String × Nat)),
    bfsMeasure g v q ≤ fuel →
    (∀ pd ∈ q, ∃ dc, dc ≤ pd.2 ∧ List.lookup pd.1 v = some dc) →
    (∀ pd ∈ q, Reach g seeds pd.2 pd.1) →
    (∀ p d, List.lookup p v = some d → Reach g seeds d p ∧ d ≤ 2) →
    (∀ p d, List.lookup p v = some d → d < 2 →
      ((∃ d', d' ≤ d ∧ (p, d') ∈ q) ∨
       (∀ n ∈ successors g p, ∃ dn, dn ≤ d + 1 ∧ List.lookup n v = some dn))) →
    Improves v (bfsLoop g fuel v q) ∧
    (∀ p d, List.lookup p (bfsLoop g fuel v q) = some d →
      Reach g seeds d p ∧ d ≤ 2) ∧
    (∀ p d, List.lookup p (bfsLoop g fuel v q) = some d → d < 2 →
      ∀ n ∈ successors g p, ∃ dn, dn ≤ d + 1 ∧
        List.lookup n (bfsLoop g fuel v q) = some dn) := by
  intro fuel
  induction fuel with
  | zero =>
    intro v q hm hB hQ hS hM
    cases q with
    | nil =>
      refine ⟨improves_refl v, hS, ?_⟩
      intro p d hp hd2 n hn
      rcases hM p d hp hd2 with h1 | h1
      · obtain ⟨d', _, hmem⟩ := h1
        cases hmem
      · exact h1 n hn
    | cons pd rest =>
      exfalso
      have h1 : bfsMeasure g v (pd :: rest) = potential g.nodes v +
          (rest.length + 1) := by
        unfold bfsMeasure
        simp
      omega
  | succ m ih =>
    intro v q hm hB hQ hS hM
    cases q with
    | nil =>
      refine ⟨improves_refl v, hS, ?_⟩
      intro p d hp hd2 n hn
      rcases hM p d hp hd2 with h1 | h1
      · obtain ⟨d', _, hmem⟩ := h1
        cases hmem
      · exact h1 n hn
    | cons pd rest =>
      obtain ⟨p, dq⟩ := pd
      have hmlen : bfsMeasure g v ((p, dq) :: rest) = potential g.nodes v +
          (rest.length + 1) := by
        unfold bfsMeasure
        simp
      by_cases hdq : 2 ≤ dq
      · have heq : bfsLoop g (m + 1) v ((p, dq) :: rest) = bfsLoop g m v rest := by
          show (if 2 ≤ dq then bfsLoop g m v rest
            else
              let r := relaxNeighbors dq (successors g p) v rest
              bfsLoop g m r.1 r.2) = _
          rw [if_pos hdq]
        rw [heq]
        apply ih v rest
        · unfold bfsMeasure
          omega
        · intro x hx
          exact hB x (by simp [hx])
        · intro x hx
          exact hQ x (by simp [hx])
        · exact hS
        · intro x dx hx hdx2
          rcases hM x dx hx hdx2 with ⟨d', hle, hmem⟩ | h1
          · rcases List.mem_cons.mp hmem with h2 | h2
            · exfalso
              have : d' = dq := congrArg Prod.snd h2
              omega
            · exact Or.inl ⟨d', hle, h2⟩
          · exact Or.inr h1
      · push_neg at hdq
        have heq : bfsLoop g (m + 1) v ((p, dq) :: rest) =
            bfsLoop g m (relaxNeighbors dq (successors g p) v rest).1
              (relaxNeighbors dq (successors g p) v rest).2 := by
          show (if 2 ≤ dq then bfsLoop g m v rest
            else
              let r := relaxNeighbors dq (successors g p) v rest
              bfsLoop g m r.1 r.2) = _
          rw [if_neg (by omega)]
        rw [heq]
        have hreachp : Reach g seeds dq p := hQ (p, dq) (by simp)
        have hnsReach : ∀ n ∈ successors g p, Reach g seeds (dq + 1) n :=
          fun n hn => Reach.step hreachp hn
        have hnsNode : ∀ n ∈ successors g p, n ∈ g.nodes :=
          fun n hn => hclosed (p, n) (successors_mem_edges hn)
        have hBrest : ∀ x ∈ rest, ∃ dc, dc ≤ x.2 ∧ List.lookup x.1 v = some dc :=
          fun x hx => hB x (by simp [hx])
        have hQrest : ∀ x ∈ rest, Reach g seeds x.2 x.1 :=
          fun x hx => hQ x (by simp [hx])
        have hiB := relax_invB dq (successors g p) v rest hBrest
        have hiQ := relax_invQ g seeds dq (successors g p) v rest hQrest hnsReach
        have hiS := relax_sound g seeds dq hdq (successors g p) v rest hS hnsReach
        have hiI := relax_improves dq (successors g p) v rest
        have hiM : ∀ x dx,
            List.lookup x (relaxNeighbors dq (successors g p) v rest).1 = some dx →
            dx < 2 →
            ((∃ d', d' ≤ dx ∧ (x, d') ∈
              (relaxNeighbors dq (successors g p) v rest).2) ∨
             (∀ n ∈ successors g x, ∃ dn, dn ≤ dx + 1 ∧
               List.lookup n (relaxNeighbors dq (successors g p) v rest).1 =
                 some dn)) := by
          intro x dx hx hdx2
          rcases relax_change dq hdq (successors g p) v rest x dx hx with hA | hB2
          · rcases hM x dx hA hdx2 with ⟨d', hle, hmem⟩ | hsecond
            · rcases List.mem_cons.mp hmem with h2 | h2
              · have hx_p : x = p := congrArg Prod.fst h2
                have hd'_dq : d' = dq := congrArg Prod.snd h2
                subst hx_p
                obtain ⟨dc, hdcle, hdclk⟩ := hB (x, dq) (by simp)
                rw [hA] at hdclk
                cases hdclk
                have hdx_dq : dx = dq := by omega
                refine Or.inr ?_
                intro n hn
                obtain ⟨dn, hdnle, hdnlk⟩ :=
                  relax_bound dq (successors g x) v rest n hn
                exact ⟨dn, by omega, hdnlk⟩
              · refine Or.inl ⟨d', hle, ?_⟩
                obtain ⟨extra, hex⟩ :=
                  relax_queue_extend dq (successors g p) v rest
                rw [hex]
                exact List.mem_append.mpr (Or.inl h2)
            · refine Or.inr ?_
              intro n hn
              obtain ⟨dn, hdnle, hdnlk⟩ := hsecond n hn
              obtain ⟨dn', hdn'le, hdn'lk⟩ := hiI n dn hdnlk
              exact ⟨dn', by omega, hdn'lk⟩
          · exact Or.inl ⟨dx, le_refl dx, hB2.2⟩
        have hpot := relax_potential g hnodup dq hdq (successors g p) v rest hnsNode
        have hmes : bfsMeasure g (relaxNeighbors dq (successors g p) v rest).1
            (relaxNeighbors dq (successors g p) v rest).2 ≤ m := by
          unfold bfsMeasure at hm ⊢
          simp at hm
          omega
        obtain ⟨hri, hrs, hrc⟩ := ih _ _ hmes hiB hiQ hiS hiM
        exact ⟨improves_trans hiI hri, hrs, hrc⟩

theorem seedFold_stable (g : Graph) (p : String) :
    ∀ (l : List String) (acc : Visited × List (String × Nat)),
    List.lookup p acc.1 = some 0 →
    List.lookup p (l.foldl (fun acc f =>
      if f ∈ g.nodes then ((f, 0) :: acc.1, acc.2 ++ [(f, 0)]) else acc) acc).1 =
      some 0 := by
  intro l
  induction l with
  | nil => intro acc h; exact h
  | cons a rest ih =>
    intro acc h
    rw [List.foldl_cons]
    apply ih
    by_cases ha : a ∈ g.nodes
    · rw [if_pos ha]
      show List.lookup p ((a, 0) :: acc.1) = some 0
      by_cases hpa : p = a
      · subst hpa
        exact lookup_cons_self p 0 acc.1
      · rw [lookup_cons_ne _ _ hpa]
        exact h
    · rw [if_neg ha]
      exact h

theorem seedFold_mem (g : Graph) (p : String) (hp : p ∈ g.nodes) :
    ∀ (l : List String) (acc : Visited × List (String × Nat)),
    p ∈ l →
    List.lookup p (l.foldl (fun acc f =>
      if f ∈ g.nodes then ((f, 0) :: acc.1, acc.2 ++ [(f, 0)]) else acc) acc).1 =
      some 0 := by
  intro l
  induction l with
  | nil => intro acc h; cases h
  | cons a rest ih =>
    intro acc hmem
    rw [List.foldl_cons]
    by_cases hpa : p = a
    · subst hpa
      apply seedFold_stable
      rw [if_pos hp]
      exact lookup_cons_self p 0 acc.1
    · have hrest : p ∈ rest := by
        cases hmem with
        | head => exact absurd rfl hpa
        | tail _ h2 => exact h2
      exact ih _ hrest

theorem seedFold_len : ∀ (g : Graph) (l : List String)
    (acc : Visited × List (String × Nat)),
    (l.foldl (fun acc f =>
      if f ∈ g.nodes then ((f, 0) :: acc.1, acc.2 ++ [(f, 0)]) else acc) acc).2.length ≤
      acc.2.length + l.length := by
  intro g l
  induction l with
  | nil => intro acc; simp
  | cons a rest ih =>
    intro acc
    rw [List.foldl_cons]
    by_cases ha : a ∈ g.nodes
    · rw [if_pos ha]
      have := ih ((a, 0) :: acc.1, acc.2 ++ [(a, 0)])
      simp at this
      simp
      omega
    · rw [if_neg ha]
      have := ih acc
      simp
      omega

theorem seedFold_inv (g : Graph) (seeds : List String) :
    ∀ (l : List String) (acc : Visited × List (String × Nat)),
    (∀ x ∈ l, x ∈ seeds) →
    (∀ pd ∈ acc.2, pd.2 = 0 ∧ List.lookup pd.1 acc.1 = some 0) →
    (∀ p d, List.lookup p acc.1 = some d →
      d = 0 ∧ p ∈ seeds ∧ p ∈ g.nodes ∧ (p, 0) ∈ acc.2) →
    (∀ pd ∈ (l.foldl (fun acc f =>
        if f ∈ g.nodes then ((f, 0) :: acc.1, acc.2 ++ [(f, 0)]) else acc) acc).2,
      pd.2 = 0 ∧ List.lookup pd.1 (l.foldl (fun acc f =>
        if f ∈ g.nodes then ((f, 0) :: acc.1, acc.2 ++ [(f, 0)]) else acc) acc).1 =
        some 0) ∧
    (∀ p d, List.lookup p (l.foldl (fun acc f =>
        if f ∈ g.nodes then ((f, 0) :: acc.1, acc.2 ++ [(f, 0)]) else acc) acc).1 =
        some d →
      d = 0 ∧ p ∈ seeds ∧ p ∈ g.nodes ∧ (p, 0) ∈ (l.foldl (fun acc f =>
        if f ∈ g.nodes then ((f, 0) :: acc.1, acc.2 ++ [(f, 0)]) else acc) acc).2) := by
  intro l
  induction l with
  | nil => intro acc _ h1 h2; exact ⟨h1, h2⟩
  | cons a rest ih =>
    intro acc hsub h1 h2
    rw [List.foldl_cons]
    by_cases ha : a ∈ g.nodes
    · rw [if_pos ha]
      apply ih ((a, 0) :: acc.1, acc.2 ++ [(a, 0)])
        (fun x hx => hsub x (by simp [hx]))
      · intro pd hpd
        rcases List.mem_append.mp hpd with hold | hnew
        · obtain ⟨hz, hlk⟩ := h1 pd hold
          refine ⟨hz, ?_⟩
          by_cases hpa : pd.1 = a
          · rw [hpa]
            exact lookup_cons_self a 0 acc.1
          · show List.lookup pd.1 ((a, 0) :: acc.1) = some 0
            rw [lookup_cons_ne _ _ hpa]
            exact hlk
        · have : pd = (a, 0) := by simpa using hnew
          subst this
          exact ⟨rfl, lookup_cons_self a 0 acc.1⟩
      · intro p d hp
        by_cases hpa : p = a
        · subst hpa
          rw [lookup_cons_self] at hp
          cases hp
          exact ⟨rfl, hsub p (by simp), ha, by simp⟩
        · show _
          rw [show List.lookup p ((a, 0) :: acc.1) = List.lookup p acc.1 from
            lookup_cons_ne _ _ hpa] at hp
          obtain ⟨hz, hseeds, hnodes, hmem⟩ := h2 p d hp
          exact ⟨hz, hseeds, hnodes, by simp [hmem]⟩
    · rw [if_neg ha]
      exact ih acc (fun x hx => hsub x (by simp [hx])) h1 h2

theorem getContextDepths_spec (g : Graph) (seeds : List String)
    (hnodup : g.nodes.Nodup) (hclosed : ∀ e ∈ g.edges, e.2 ∈ g.nodes) :
    Improves (seedInit g seeds).1 (getContextDepths g seeds) ∧
    (∀ p d, List.lookup p (getContextDepths g seeds) = some d →
      Reach g seeds d p ∧ d ≤ 2) ∧
    (∀ p d, List.lookup p (getContextDepths g seeds) = some d → d < 2 →
      ∀ n ∈ successors g p, ∃ dn, dn ≤ d + 1 ∧
        List.lookup n (getContextDepths g seeds) = some dn) := by
  obtain ⟨hQall, hLall⟩ := seedFold_inv g seeds seeds ([], [])
    (fun x hx => hx) (fun pd hpd => by cases hpd) (fun p d hp => by cases hp)
  have hmes : bfsMeasure g (seedInit g seeds).1 (seedInit g seeds).2 ≤
      bfsFuel g seeds := by
    unfold bfsMeasure bfsFuel
    have h1 := potential_le (seedInit g seeds).1 g.nodes
    have h2 := seedFold_len g seeds ([], [])
    have h3 : (seedInit g seeds).2.length ≤ seeds.length := by
      have : (([], []) : Visited × List (String × Nat)).2.length + seeds.length =
          seeds.length := by simp
      rw [← this]
      exact h2
    omega
  exact bfsLoop_run g seeds hnodup hclosed (bfsFuel g seeds)
    (seedInit g seeds).1 (seedInit g seeds).2 hmes
    (fun pd hpd => ⟨pd.2, le_refl pd.2, ((hQall pd hpd).2).trans
      (by rw [(hQall pd hpd).1])⟩)
    (fun pd hpd => by
      obtain ⟨hz, hlk⟩ := hQall pd hpd
      obtain ⟨hz2, hseeds, hnodes, _⟩ := hLall pd.1 0 hlk
      rw [hz]
      exact Reach.seed hseeds hnodes)
    (fun p d hp => by
      obtain ⟨hz, hseeds, hnodes, _⟩ := hLall p d hp
      subst hz
      exact ⟨Reach.seed hseeds hnodes, by omega⟩)
    (fun p d hp _ => by
      obtain ⟨hz, _, _, hmem⟩ := hLall p d hp
      subst hz
      exact Or.inl ⟨0, le_refl 0, hmem⟩)

theorem getContextDepths_complete (g : Graph) (seeds : List String)
    (hnodup : g.nodes.Nodup) (hclosed : ∀ e ∈ g.edges, e.2 ∈ g.nodes) :
    ∀ (d : Nat) (p : String), Reach g seeds d p → d ≤ 2 →
      ∃ d', d' ≤ d ∧ List.lookup p (getContextDepths g seeds) = some d' := by
  intro d p h
  induction h with
  | @seed p0 hps hpn =>
    intro _
    have h0 : List.lookup p0 (seedInit g seeds).1 = some 0 :=
      seedFold_mem g p0 hpn seeds ([], []) hps
    obtain ⟨d', hle, hlk⟩ :=
      (getContextDepths_spec g seeds hnodup hclosed).1 p0 0 h0
    exact ⟨d', hle, hlk⟩
  | @step d0 p0 n0 hreach hsucc ih =>
    intro hle2
    obtain ⟨dp, hdple, hdplk⟩ := ih (by omega)
    have hdp2 : dp < 2 := by omega
    obtain ⟨dn, hdnle, hdnlk⟩ :=
      (getContextDepths_spec g seeds hnodup hclosed).2.2 _ dp hdplk hdp2 _ hsucc
    exact ⟨dn, by omega, hdnlk⟩

theorem mem_insertByPath (x a : String × String) : ∀ l : List (String × String),
    a ∈ insertByPath x l ↔ a = x ∨ a ∈ l := by
  intro l
  induction l with
  | nil => simp [insertByPath]
  | cons y ys ih =>
    unfold insertByPath
    by_cases h : x.1 ≤ y.1
    · rw [if_pos h]
      simp [List.mem_cons]
    · rw [if_neg h]
      simp [List.mem_cons, ih]
      tauto

theorem mem_sortByPath (a : String × String) : ∀ l : List (String × String),
    a ∈ sortByPath l ↔ a ∈ l := by
  intro l
  induction l with
  | nil => simp [sortByPath]
  | cons x xs ih =>
    show a ∈ insertByPath x (sortByPath xs) ↔ _
    rw [mem_insertByPath, ih]
    simp [List.mem_cons]

/-- **C3**: for every dependency graph (nodes closed under edge targets,
paths unique) and every seed set, the BFS of `get_context` assigns each
visited node a hop-depth equal to its true minimum BFS distance from the
nearest seed — never farther, never beyond 2 — and records every node
reachable within 2 hops of some seed while excluding every node whose
minimum distance exceeds 2. -/
theorem claim_C3 (g : Graph) (seeds : List String)
    (hnodup : g.nodes.Nodup) (hclosed : ∀ e ∈ g.edges, e.2 ∈ g.nodes) :
    (∀ p d, List.lookup p (getContextDepths g seeds) = some d →
      d ≤ 2 ∧ Reach g seeds d p ∧ ∀ d', Reach g seeds d' p → d ≤ d') ∧
    (∀ d p, Reach g seeds d p → d ≤ 2 →
      ∃ d', d' ≤ d ∧ List.lookup p (getContextDepths g seeds) = some d') := by
  have hspec := getContextDepths_spec g seeds hnodup hclosed
  have hcomp := getContextDepths_complete g seeds hnodup hclosed
  constructor
  · intro p d hp
    obtain ⟨hreach, hle2⟩ := hspec.2.1 p d hp
    refine ⟨hle2, hreach, ?_⟩
    intro d' hd'
    by_cases hc : d' ≤ 2
    · obtain ⟨d'', hle'', hlk''⟩ := hcomp d' p hd' hc
      rw [hp] at hlk''
      cases hlk''
      omega
    · omega
  · exact hcomp

/-- Witness for C3 on the chain a → b → c → d with seed a: c is recorded at
depth at most 2. -/
theorem claim_C3_witness :
    ∃ d', d' ≤ 2 ∧
      List.lookup "c.ts" (getContextDepths c3Graph ["a.ts"]) = some d' :=
  (claim_C3 c3Graph ["a.ts"] (by decide) (by decide)).2 2 "c.ts"
    (@Reach.step c3Graph ["a.ts"] 1 "b.ts" "c.ts"
      (@Reach.step c3Graph ["a.ts"] 0 "a.ts" "b.ts"
        (@Reach.seed c3Graph ["a.ts"] "a.ts" (by decide) (by decide))
        (by decide))
      (by decide))
    (le_refl 2)

/-- **C5** counterexample: a seed path that is not a node of the dependency
graph is silently dropped — `get_context` returns nothing for it even
though its content is readable from disk — refuting "every seed path
appears in the returned list". -/
theorem claim_C5_counterexample :
    getContext c5Graph (fun _ => none) c5Disk ["ghost.rs"] = [] ∧
      c5Disk "ghost.rs" = some "mod a;" := by
  constructor
  · decide
  · decide

/-- **C5** (amended): every seed path that is a node of the dependency
graph and whose file is readable appears in the returned list (at depth 0)
with its content exactly as read from disk, unmodified; seeds outside the
graph's node map, or unreadable ones, are dropped. -/
theorem claim_C5 (g : Graph) (tsP : TsParse) (disk : String → Option String)
    (seeds : List String) (p : String) (content : String)
    (hnodup : g.nodes.Nodup) (hclosed : ∀ e ∈ g.edges, e.2 ∈ g.nodes)
    (hps : p ∈ seeds) (hpn : p ∈ g.nodes) (hdisk : disk p = some content) :
    (p, content) ∈ getContext g tsP disk seeds := by
  have h0 : List.lookup p (seedInit g seeds).1 = some 0 :=
    seedFold_mem g p hpn seeds ([], []) hps
  obtain ⟨d', hle, hlk⟩ := (getContextDepths_spec g seeds hnodup hclosed).1 p 0 h0
  have hd0 : d' = 0 := by omega
  subst hd0
  show (p, content) ∈ sortByPath (g.nodes.filterMap (fun x =>
    match List.lookup x (getContextDepths g seeds) with
    | none => none
    | some depth =>
      match disk x with
      | none => none
      | some c =>
        if depth ≤ 1 then some (x, c)
        else if depth = 2 then some (x, pruneContent tsP x c)
        else none))
  rw [mem_sortByPath]
  apply List.mem_filterMap.mpr
  refine ⟨p, hpn, ?_⟩
  rw [hlk, hdisk]
  rfl

/-- Witness for C5 at a concrete one-node graph whose node is the seed. -/
theorem claim_C5_witness :
    ("main.rs", "fn main() \x7b\x7d") ∈
      getContext c5wGraph (fun _ => none) c5wDisk ["main.rs"] :=
  claim_C5 c5wGraph (fun _ => none) c5wDisk ["main.rs"] "main.rs"
    "fn main() \x7b\x7d" (by decide) (by decide) (by decide) (by decide)
    (by decide)

end DirectorPlan
